import Mathlib

/-!
Shallow embedding of the core of the `anti-work` repository:
the repository change-detection scanner (`scanner.ts`, given as an unnamed
source part) and the work-hour / overtime services
(`packages/server/src/services/workHour.ts`, `workTime.ts`).

Modelling conventions:
* JS objects used as string-keyed maps (`Record<string, T>`) are modelled as
  association lists `List (κ × α)`; property read is `lookupA`, property
  assignment is `insertA`, the `delete` operator is `eraseA`.
* Calendar dates (`'YYYY-MM-DD'` strings produced and consumed by dayjs) are
  modelled as day numbers since 1970-01-01, which was a Thursday, so
  dayjs's `.day()` (0 = Sunday .. 6 = Saturday) is `(d + 4) % 7`;
  `.add(1, 'day')` is `+ 1` and `.format('YYYY-MM-DD')` is the identity.
* The Prisma database tables are modelled as lists of rows passed explicitly.
-/

namespace AntiWork

/-- Association-list lookup, modelling `obj[key]` on a JS object
(`undefined` becomes `none`). -/
def lookupA {κ α : Type} [DecidableEq κ] : List (κ × α) → κ → Option α
  | [], _ => none
  | e :: t, k => if e.1 = k then some e.2 else lookupA t k

/-- Association-list insertion, modelling `obj[key] = v`: replaces the first
binding of `k`, or appends a new one. -/
def insertA {κ α : Type} [DecidableEq κ] (m : List (κ × α)) (k : κ) (v : α) :
    List (κ × α) :=
  match m with
  | [] => [(k, v)]
  | e :: t => if e.1 = k then (k, v) :: t else e :: insertA t k v

/-- Association-list removal, modelling `delete obj[key]`. -/
def eraseA {κ α : Type} [DecidableEq κ] : List (κ × α) → κ → List (κ × α)
  | [], _ => []
  | e :: t, k => if e.1 = k then eraseA t k else e :: eraseA t k

theorem lookupA_insertA_self {κ α : Type} [DecidableEq κ]
    (m : List (κ × α)) (k : κ) (v : α) : lookupA (insertA m k v) k = some v := by
  induction m with
  | nil => simp [lookupA, insertA]
  | cons e t ih =>
    by_cases h : e.1 = k
    · simp [lookupA, insertA, h]
    · simpa [lookupA, insertA, h] using ih

theorem lookupA_insertA_ne {κ α : Type} [DecidableEq κ]
    (m : List (κ × α)) (k k' : κ) (v : α) (hne : k ≠ k') :
    lookupA (insertA m k v) k' = lookupA m k' := by
  induction m with
  | nil => simp [lookupA, insertA, hne]
  | cons e t ih =>
    by_cases h : e.1 = k
    · simp [lookupA, insertA, h, hne]
    · by_cases h' : e.1 = k'
      · simp [lookupA, insertA, h, h', Ne.symm hne]
      · simpa [lookupA, insertA, h, h'] using ih

theorem lookupA_eraseA_self {κ α : Type} [DecidableEq κ]
    (m : List (κ × α)) (k : κ) : lookupA (eraseA m k) k = none := by
  induction m with
  | nil => simp [lookupA, eraseA]
  | cons e t ih =>
    by_cases h : e.1 = k
    · simpa [lookupA, eraseA, h] using ih
    · simpa [lookupA, eraseA, h] using ih

theorem lookupA_eraseA_ne {κ α : Type} [DecidableEq κ]
    (m : List (κ × α)) (k k' : κ) (hne : k ≠ k') :
    lookupA (eraseA m k) k' = lookupA m k' := by
  induction m with
  | nil => simp [lookupA, eraseA]
  | cons e t ih =>
    by_cases h : e.1 = k
    · have h' : ¬ e.1 = k' := fun hk => hne (h ▸ hk ▸ rfl)
      simpa [lookupA, eraseA, h, h', hne] using ih
    · by_cases h' : e.1 = k'
      · simp [lookupA, eraseA, h, h', Ne.symm hne]
      · simpa [lookupA, eraseA, h, h'] using ih

theorem eraseA_of_lookupA_none {κ α : Type} [DecidableEq κ]
    (m : List (κ × α)) (k : κ) (h : lookupA m k = none) : eraseA m k = m := by
  induction m with
  | nil => rfl
  | cons e t ih =>
    by_cases he : e.1 = k
    · simp [lookupA, he] at h
    · have ht : lookupA t k = none := by simpa [lookupA, he] using h
      simp [eraseA, he, ih ht]

/-! ### JS string primitives, modelled structurally over `List Char` -/

/-- `String.prototype.split` with a single-character separator; always
returns at least one part. -/
def jsSplit (sep : Char) : List Char → List (List Char)
  | [] => [[]]
  | c :: rest =>
      let r := jsSplit sep rest
      if c = sep then [] :: r
      else
        match r with
        | h :: t => (c :: h) :: t
        | [] => [[c]]

/-- `String.prototype.trim`: strip leading and trailing whitespace. -/
def jsTrim (cs : List Char) : List Char :=
  ((cs.dropWhile Char.isWhitespace).reverse.dropWhile Char.isWhitespace).reverse

/-- Does the second list start with the first? -/
def startsWithChars : List Char → List Char → Bool
  | [], _ => true
  | _ :: _, [] => false
  | p :: ps, c :: cs => c = p && startsWithChars ps cs

/-- Substring occurrence (`String.prototype.includes`). -/
def isInfixChars (pat : List Char) : List Char → Bool
  | [] => startsWithChars pat []
  | c :: t => startsWithChars pat (c :: t) || isInfixChars pat t

/-- JS `Number(...)` restricted to the digit strings this code feeds it
(`Number('') = 0`; `NaN` from a non-digit string is modelled as 0, which
this repository never relies on). -/
def numberOfChars (cs : List Char) : Nat :=
  if cs.all Char.isDigit then
    cs.foldl (fun acc c => acc * 10 + (c.toNat - 48)) 0
  else 0

/-! ### Work-hour / overtime model (`packages/server/src/services`) -/

/-- dayjs `.day()` on a date modelled as days since 1970-01-01 (a Thursday):
0 = Sunday, …, 6 = Saturday. -/
def dayOfWeek (date : Nat) : Nat := (date + 4) % 7

/-- A row of the Prisma `userConfig` table.  The work/lunch window fields are
nullable `'HH:MM'` strings. -/
structure UserConfig where
  workTimeStart : Option String
  workTimeEnd : Option String
  lunchStart : Option String
  lunchEnd : Option String
deriving Repr, DecidableEq

/-- JS `x || default` on an optional string field: `null`/`undefined` and the
empty string are falsy. -/
def jsOrStr (x : Option String) (d : String) : String :=
  match x with
  | none => d
  | some s => if s = "" then d else s

/-- `const [h] = s.split(':').map(Number)`: the hour component of an
`'HH:MM'` boundary. -/
def hourComponent (s : String) : Nat :=
  numberOfChars ((jsSplit ':' s.toList).headD [])

/-- `isOvertimeHour` from `workHour.ts`: looks up the user's config
(defaults work 09:00–18:00, lunch 12:00–14:00), then decides:
weekend → overtime; lunch window (half-open, by hour) → not overtime;
outside the work window → overtime; otherwise not overtime. -/
def isOvertimeHour (userConfigs : List (Nat × UserConfig)) (userId : Nat)
    (date : Nat) (hour : Nat) : Bool :=
  let userConfig := lookupA userConfigs userId
  let workTimeStart := jsOrStr (userConfig.bind (·.workTimeStart)) "09:00"
  let workTimeEnd := jsOrStr (userConfig.bind (·.workTimeEnd)) "18:00"
  let lunchStart := jsOrStr (userConfig.bind (·.lunchStart)) "12:00"
  let lunchEnd := jsOrStr (userConfig.bind (·.lunchEnd)) "14:00"
  let dow := dayOfWeek date
  if dow = 0 ∨ dow = 6 then
    true
  else
    let startHour := hourComponent workTimeStart
    let endHour := hourComponent workTimeEnd
    let lunchStartHour := hourComponent lunchStart
    let lunchEndHour := hourComponent lunchEnd
    if lunchStartHour ≤ hour ∧ hour < lunchEndHour then
      false
    else if hour < startHour ∨ hour ≥ endHour then
      true
    else
      false

/-- A row of the Prisma `workHour` table (the `WorkHour` interface of
`workTime.ts` is the same shape minus `userId`).  `date` is a calendar day
(see the date modelling convention above). -/
structure WorkHour where
  id : Nat
  userId : Nat
  date : Nat
  hour : Nat
  hasActivity : Bool
  codeChanges : Nat
  webActivities : Nat
  isOvertime : Bool
deriving Repr, DecidableEq

/-- The kind of activity reported to `updateWorkHour`. -/
inductive ActivityType where
  | code
  | web
deriving Repr, DecidableEq

/-- The projections dayjs takes of `recordedAt` inside `updateWorkHour`:
`format('YYYY-MM-DD')` (here the day number) and `.hour()` (minutes
truncated). -/
structure Timestamp where
  date : Nat
  hour : Nat
deriving Repr, DecidableEq

/-- `prisma.workHour.findUnique({ where: { userId_date_hour } })`. -/
def findWorkHour (db : List WorkHour) (userId date hour : Nat) :
    Option WorkHour :=
  db.find? (fun r => r.userId = userId ∧ r.date = date ∧ r.hour = hour)

/-- `updateWorkHour` from `workHour.ts`: upsert of the `(userId, date, hour)`
bucket.  On update only `hasActivity`, `codeChanges` and `webActivities` are
written; on create `isOvertime` is computed once via `isOvertimeHour`.
The autoincrement row id is modelled as the current table length. -/
def updateWorkHour (userConfigs : List (Nat × UserConfig)) (db : List WorkHour)
    (userId : Nat) (recordedAt : Timestamp) (type : ActivityType)
    (count : Nat) : List WorkHour :=
  let date := recordedAt.date
  let hour := recordedAt.hour
  let isOvertime := isOvertimeHour userConfigs userId date hour
  match findWorkHour db userId date hour with
  | some existing =>
      db.map (fun r =>
        if r.id = existing.id then
          { r with
            hasActivity := true
            codeChanges :=
              if type = ActivityType.code then existing.codeChanges + count
              else existing.codeChanges
            webActivities :=
              if type = ActivityType.web then existing.webActivities + count
              else existing.webActivities }
        else r)
  | none =>
      db ++ [{ id := db.length
               userId := userId
               date := date
               hour := hour
               hasActivity := true
               codeChanges := if type = ActivityType.code then count else 0
               webActivities := if type = ActivityType.web then count else 0
               isOvertime := isOvertime }]

/-- Result of `calculateWorkTime` in `workTime.ts`. -/
structure WorkTimeTotals where
  totalHours : Nat
  normalHours : Nat
  overtimeHours : Nat
deriving Repr, DecidableEq

/-- `calculateWorkTime` from `workTime.ts`. -/
def calculateWorkTime (workHours : List WorkHour) : WorkTimeTotals :=
  let activeHours := workHours.filter (fun h => h.hasActivity)
  let totalHours := activeHours.length
  let overtimeHours := (activeHours.filter (fun h => h.isOvertime)).length
  let normalHours := totalHours - overtimeHours
  { totalHours := totalHours
    normalHours := normalHours
    overtimeHours := overtimeHours }

/-- Result of `calculateOvertimeStats` in `workTime.ts`.  The two `Record`s
are association lists. -/
structure OvertimeStats where
  totalOvertimeHours : Nat
  weekdayOvertimeHours : Nat
  weekendOvertimeHours : Nat
  dailyOvertime : List (Nat × Nat)
  overtimeByHour : List (Nat × Nat)
deriving Repr, DecidableEq

/-- The body of the `for (const wh of workHours)` loop of
`calculateOvertimeStats`; the accumulator is
`(dailyOvertime, overtimeByHour, weekdayOvertimeHours, weekendOvertimeHours)`. -/
def overtimeStep (acc : List (Nat × Nat) × List (Nat × Nat) × Nat × Nat)
    (wh : WorkHour) : List (Nat × Nat) × List (Nat × Nat) × Nat × Nat :=
  if wh.hasActivity && wh.isOvertime then
    let dow := dayOfWeek wh.date
    let isWeekend := dow = 0 ∨ dow = 6
    let daily :=
      match lookupA acc.1 wh.date with
      | some v => insertA acc.1 wh.date (v + 1)
      | none => acc.1
    let byHour := insertA acc.2.1 wh.hour ((lookupA acc.2.1 wh.hour).getD 0 + 1)
    if isWeekend then (daily, byHour, acc.2.2.1, acc.2.2.2 + 1)
    else (daily, byHour, acc.2.2.1 + 1, acc.2.2.2)
  else acc

/-- `calculateOvertimeStats` from `workTime.ts`: initializes a zero entry for
every day of `[startDate, endDate]` and every hour `0..23`, then folds
`overtimeStep` over the buckets.  (The function also reads the global
`workTime` config but never uses it.) -/
def calculateOvertimeStats (workHours : List WorkHour)
    (startDate endDate : Nat) : OvertimeStats :=
  let dailyInit := (List.range (endDate + 1 - startDate)).map
    (fun i => (startDate + i, 0))
  let byHourInit := (List.range 24).map (fun h => (h, 0))
  let acc := workHours.foldl overtimeStep (dailyInit, byHourInit, 0, 0)
  { totalOvertimeHours := acc.2.2.1 + acc.2.2.2
    weekdayOvertimeHours := acc.2.2.1
    weekendOvertimeHours := acc.2.2.2
    dailyOvertime := acc.1
    overtimeByHour := acc.2.1 }

/-- Sum of the values of an association list (total count held by a
`Record<_, number>`). -/
def sumVals (m : List (Nat × Nat)) : Nat := (m.map (·.2)).sum

/-! ### Repository scanner model (the unnamed `scanner.ts` source part) -/

/-- Aggregate stats of a diff: `{linesAdded, linesDeleted, filesChanged}`
(JS numbers, so `Int`). -/
structure UncommittedStats where
  linesAdded : Int
  linesDeleted : Int
  filesChanged : Int
deriving Repr, DecidableEq

/-- `ScannerState` from `scanner.ts`: three repo-path-keyed maps. -/
structure ScannerState where
  lastCommitHashes : List (String × String)
  lastDiffHashes : List (String × String)
  lastUncommittedStats : List (String × UncommittedStats)
deriving Repr, DecidableEq

/-- The state returned when nothing (valid) is persisted. -/
def emptyScannerState : ScannerState :=
  { lastCommitHashes := [], lastDiffHashes := [], lastUncommittedStats := [] }

/-- A successfully JSON-parsed state file of a possibly older schema: any of
the three fields may be missing (or null). -/
structure PartialScannerState where
  lastCommitHashes : Option (List (String × String))
  lastDiffHashes : Option (List (String × String))
  lastUncommittedStats : Option (List (String × UncommittedStats))
deriving Repr, DecidableEq

/-- `loadState` from `scanner.ts`.  The filesystem/JSON outcome is the input:
`none` = state file absent, `some none` = present but unreadable or not valid
JSON (the `try` swallows the error), `some (some parsed)` = parsed content,
whose missing fields are defaulted to empty maps by the `||` fallbacks. -/
def loadState (file : Option (Option PartialScannerState)) : ScannerState :=
  match file with
  | some (some parsed) =>
      { lastCommitHashes := parsed.lastCommitHashes.getD []
        lastDiffHashes := parsed.lastDiffHashes.getD []
        lastUncommittedStats := parsed.lastUncommittedStats.getD [] }
  | some none => emptyScannerState
  | none => emptyScannerState

/-- `hashString` (an md5 digest in the source) modelled as a collision-free
fingerprint of the diff text. -/
def hashString (s : String) : String := s

/-- `basename` from `path`: the last `/`-separated component. -/
def basename (p : String) : String :=
  String.mk ((jsSplit '/' p.toList).getLastD [])

/-- The `RepoChange` interface: what the scanner reports.  It has no
repository-path field. -/
structure RepoChange where
  repoName : String
  branch : String
  linesAdded : Int
  linesDeleted : Int
  filesChanged : Int
  isCommitted : Bool
  commitHash : Option String
deriving Repr, DecidableEq

/-- The internal `InternalRepoChange extends RepoChange` carrying the full
path for state management; `toRepoChange` is the
`({ _repoPath, ...change }) => change` destructuring. -/
structure InternalRepoChange extends RepoChange where
  _repoPath : String
deriving Repr, DecidableEq

/-- One commit of a repository's linear history:
its hash, its commit date (ms since epoch, what `git log --since` filters
on), and the text `git show <hash> --stat --format=` prints. -/
structure Commit where
  hash : String
  timestamp : Nat
  showOutput : String
deriving Repr, DecidableEq

/-- A git repository as the scanner observes it: its path, the current
branch name (`git rev-parse --abbrev-ref HEAD`), its linear history oldest
first, the working-tree diff text (`git diff HEAD --stat`) and the parsed
diff summary (`git diffSummary HEAD`). -/
structure Repo where
  path : String
  branch : String
  commits : List Commit
  diffOutput : String
  diffStats : UncommittedStats
deriving Repr, DecidableEq

/-- The whitespace class of the regex `\s` (ASCII part). -/
def isSpaceChar (c : Char) : Bool :=
  c = ' ' ∨ c = '\t' ∨ c = '\n' ∨ c = '\r' ∨ c = Char.ofNat 11 ∨ c = Char.ofNat 12

/-- Greedy continuation of `\d+` with its accumulated value. -/
def digitsAux (acc : Nat) : List Char → Nat × List Char
  | [] => (acc, [])
  | c :: rest =>
      if c.isDigit then digitsAux (acc * 10 + (c.toNat - 48)) rest
      else (acc, c :: rest)

/-- `(\d+)`: at least one digit, greedily. -/
def takeDigits : List Char → Option (Nat × List Char)
  | [] => none
  | c :: rest =>
      if c.isDigit then some (digitsAux (c.toNat - 48) rest) else none

/-- `\s+`: at least one whitespace character, greedily. -/
def takeSpaces1 : List Char → Option (List Char)
  | [] => none
  | c :: rest =>
      if isSpaceChar c then some (rest.dropWhile isSpaceChar) else none

/-- A literal character sequence. -/
def takeLit : List Char → List Char → Option (List Char)
  | [], cs => some cs
  | _ :: _, [] => none
  | p :: ps, c :: rest => if c = p then takeLit ps rest else none

/-- An optional single literal character (`s?`). -/
def optChar (c : Char) : List Char → List Char
  | [] => []
  | c' :: rest => if c' = c then rest else c' :: rest

/-- One optional stat group of the summary-line regex:
comma, spaces, count, spaces, the label with an optional plural `s`, and the
parenthesized sign. -/
def matchStatGroup (label sign : List Char) (cs : List Char) :
    Option (Nat × List Char) :=
  match cs with
  | ',' :: rest => do
      let rest ← takeSpaces1 rest
      let (n, rest) ← takeDigits rest
      let rest ← takeSpaces1 rest
      let rest ← takeLit label rest
      let rest := optChar 's' rest
      let rest ← takeLit sign rest
      some (n, rest)
  | _ => none

/-- The summary-line regex of `parseGitStats`, matched at one position:
digits, spaces, `file`/`files`, spaces, `changed`, then the optional
insertions and deletions groups. -/
def matchStatAt (cs : List Char) :
    Option (Nat × Option Nat × Option Nat) := do
  let (files, r) ← takeDigits cs
  let r ← takeSpaces1 r
  let r ← takeLit "file".toList r
  let r := optChar 's' r
  let r ← takeSpaces1 r
  let r ← takeLit "changed".toList r
  match matchStatGroup "insertion".toList "(+)".toList r with
  | some (ins, r2) =>
      match matchStatGroup "deletion".toList "(-)".toList r2 with
      | some (del, _) => some (files, some ins, some del)
      | none => some (files, some ins, none)
  | none =>
      match matchStatGroup "deletion".toList "(-)".toList r with
      | some (del, _) => some (files, none, some del)
      | none => some (files, none, none)

/-- `String.prototype.match` without the global flag: the leftmost match. -/
def findStatMatch : List Char → Option (Nat × Option Nat × Option Nat)
  | [] => none
  | c :: rest =>
      match matchStatAt (c :: rest) with
      | some r => some r
      | none => findStatMatch rest

/-- `parseGitStats` from `scanner.ts`: matches the stat regex against the
last line of the trimmed `git show --stat` output; an unmatched output is
all zeros. -/
def parseGitStats (output : String) : UncommittedStats :=
  let lines := jsSplit '\n' (jsTrim output.toList)
  let summaryLine := lines.getLastD []
  match findStatMatch summaryLine with
  | some (files, ins, del) =>
      { filesChanged := (files : Int)
        linesAdded := ((ins.getD 0 : Nat) : Int)
        linesDeleted := ((del.getD 0 : Nat) : Int) }
  | none => { linesAdded := 0, linesDeleted := 0, filesChanged := 0 }

/-- `getUncommittedChanges` from `scanner.ts` (incremental uncommitted-diff
reporting).  Returns the optional emitted record and the updated state. -/
def getUncommittedChanges (repo : Repo) (state : ScannerState) :
    Option InternalRepoChange × ScannerState :=
  let branch := repo.branch
  let diffOutput := repo.diffOutput
  let lastStats :=
    (lookupA state.lastUncommittedStats repo.path).getD
      { linesAdded := 0, linesDeleted := 0, filesChanged := 0 }
  if jsTrim diffOutput.toList = [] then
    (none,
      { state with
        lastDiffHashes := eraseA state.lastDiffHashes repo.path
        lastUncommittedStats := eraseA state.lastUncommittedStats repo.path })
  else
    let currentDiffHash := hashString diffOutput
    let lastDiffHash := lookupA state.lastDiffHashes repo.path
    if some currentDiffHash = lastDiffHash then
      (none, state)
    else
      let currentStats := repo.diffStats
      let deltaAdded := max 0 (currentStats.linesAdded - lastStats.linesAdded)
      let deltaDeleted :=
        max 0 (currentStats.linesDeleted - lastStats.linesDeleted)
      let deltaFiles :=
        max 0 (currentStats.filesChanged - lastStats.filesChanged)
      let state' :=
        { state with
          lastDiffHashes := insertA state.lastDiffHashes repo.path currentDiffHash
          lastUncommittedStats :=
            insertA state.lastUncommittedStats repo.path currentStats }
      if deltaAdded = 0 ∧ deltaDeleted = 0 then
        (none, state')
      else
        (some { _repoPath := repo.path
                repoName := basename repo.path
                branch := String.mk (jsTrim branch.toList)
                linesAdded := deltaAdded
                linesDeleted := deltaDeleted
                filesChanged := deltaFiles
                isCommitted := false
                commitHash := none }, state')

/-- The commits strictly after the one with hash `h` in a linear
oldest-first history. -/
def afterHash (h : String) (commits : List Commit) : List Commit :=
  (commits.dropWhile (fun c => ¬ c.hash = h)).drop 1

/-- `git.log(from: lastHash)`: commits strictly after `lastHash`, newest
first as git prints them. -/
def logFrom (h : String) (repo : Repo) : List Commit :=
  (afterHash h repo.commits).reverse

/-- `git.log(since: cutoff)`: commits whose date is at or after the cutoff,
newest first. -/
def logSince (cutoff : Nat) (repo : Repo) : List Commit :=
  (repo.commits.filter (fun c => cutoff ≤ c.timestamp)).reverse

def dayMs : Nat := 24 * 60 * 60 * 1000

def hourMs : Nat := 60 * 60 * 1000

/-- The `git.log` invocation of `getNewCommits`: from the remembered hash
when it still resolves (`git.show` succeeds), otherwise the last 24 hours;
on a very first scan the last hour. -/
def commitLog (now : Nat) (repo : Repo) (state : ScannerState) : List Commit :=
  match lookupA state.lastCommitHashes repo.path with
  | some lastHash =>
      if repo.commits.any (fun c => c.hash = lastHash) then logFrom lastHash repo
      else logSince (now - dayMs) repo
  | none => logSince (now - hourMs) repo

/-- The record `getNewCommits` pushes for one commit. -/
def commitRecord (repoPath branch : String) (c : Commit) : InternalRepoChange :=
  { _repoPath := repoPath
    repoName := basename repoPath
    branch := String.mk (jsTrim branch.toList)
    linesAdded := (parseGitStats c.showOutput).linesAdded
    linesDeleted := (parseGitStats c.showOutput).linesDeleted
    filesChanged := (parseGitStats c.showOutput).filesChanged
    isCommitted := true
    commitHash := some c.hash }

/-- The body of the per-commit loop of `getNewCommits`: push a record when
the commit's stat shows at least one changed file, and always advance the
stored last-commit hash. -/
def processCommit (repoPath branch : String)
    (acc : List InternalRepoChange × ScannerState) (commit : Commit) :
    List InternalRepoChange × ScannerState :=
  let stats := parseGitStats commit.showOutput
  let changes :=
    if stats.filesChanged > 0 then acc.1 ++ [commitRecord repoPath branch commit]
    else acc.1
  (changes,
    { acc.2 with
      lastCommitHashes := insertA acc.2.lastCommitHashes repoPath commit.hash })

/-- `getNewCommits` from `scanner.ts`: fetch the log, reverse it to oldest
first, and process each commit. -/
def getNewCommits (now : Nat) (repo : Repo) (state : ScannerState) :
    List InternalRepoChange × ScannerState :=
  let commits := (commitLog now repo state).reverse
  commits.foldl (processCommit repo.path repo.branch) ([], state)

/-- The scanner's configuration, as far as the scan loop consumes it. -/
structure ScannerConfig where
  excludePatterns : List String
deriving Repr, DecidableEq

/-- JS `String.prototype.includes`. -/
def containsSub (s pat : String) : Bool :=
  isInfixChars pat.toList s.toList

/-- The exclude-pattern check of the scan loop: any pattern occurring in the
repo's name or full path. -/
def isExcluded (cfg : ScannerConfig) (repoPath : String) : Bool :=
  cfg.excludePatterns.any
    (fun p => containsSub (basename repoPath) p || containsSub repoPath p)

/-- Per-repository processing inside `scanRepositories`: new commits first,
then the optional uncommitted change. -/
def scanRepoStep (now : Nat) (acc : List InternalRepoChange × ScannerState)
    (repo : Repo) : List InternalRepoChange × ScannerState :=
  let commitsOut := getNewCommits now repo acc.2
  let uncommittedOut := getUncommittedChanges repo commitsOut.2
  (acc.1 ++ commitsOut.1 ++ uncommittedOut.1.toList, uncommittedOut.2)

/-- The scan over all discovered repositories, still carrying the internal
records.  Filesystem discovery (`findGitRepos` over the watch paths) is
modelled by the input repo list; excluded repositories are skipped. -/
def scanInternal (cfg : ScannerConfig) (now : Nat) (repos : List Repo)
    (state : ScannerState) : List InternalRepoChange × ScannerState :=
  repos.foldl
    (fun acc repo =>
      if isExcluded cfg repo.path then acc else scanRepoStep now acc repo)
    ([], state)

/-- `scanRepositories` from `scanner.ts`: the loaded state is the `state`
argument, the saved state is the second component of the result, and the
returned records are the internal ones with `_repoPath` stripped. -/
def scanRepositories (cfg : ScannerConfig) (now : Nat) (repos : List Repo)
    (state : ScannerState) : List RepoChange × ScannerState :=
  let result := scanInternal cfg now repos state
  (result.1.map (·.toRepoChange), result.2)

/-! ### Theorems -/

theorem length_filter_mono {α : Type} (l : List α) (p q : α → Bool)
    (h : ∀ a, p a = true → q a = true) :
    (l.filter p).length ≤ (l.filter q).length := by
  induction l with
  | nil => simp
  | cons a t ih =>
    by_cases hp : p a = true
    · simp [List.filter_cons, hp, h a hp]
      omega
    · by_cases hq : q a = true <;>
        simp [List.filter_cons, hp, hq] <;> omega

theorem foldl_processCommit_records (repoPath branch : String)
    (l : List Commit) :
    ∀ p : List InternalRepoChange × ScannerState,
      (l.foldl (processCommit repoPath branch) p).1 =
        p.1 ++ l.filterMap (fun c =>
          if (parseGitStats c.showOutput).filesChanged > 0 then
            some (commitRecord repoPath branch c)
          else none) := by
  induction l with
  | nil => intro p; simp
  | cons c t ih =>
    intro p
    rw [List.foldl_cons, ih]
    by_cases h : (parseGitStats c.showOutput).filesChanged > 0 <;>
      simp [processCommit, h, List.filterMap_cons]

theorem foldl_processCommit_diff_fields (repoPath branch : String)
    (l : List Commit) :
    ∀ p : List InternalRepoChange × ScannerState,
      (l.foldl (processCommit repoPath branch) p).2.lastDiffHashes =
        p.2.lastDiffHashes ∧
      (l.foldl (processCommit repoPath branch) p).2.lastUncommittedStats =
        p.2.lastUncommittedStats := by
  induction l with
  | nil => intro p; exact ⟨rfl, rfl⟩
  | cons c t ih => intro p; exact ih _

theorem foldl_processCommit_lookup_ne (repoPath branch : String)
    (l : List Commit) (k : String) (hk : k ≠ repoPath) :
    ∀ p : List InternalRepoChange × ScannerState,
      lookupA (l.foldl (processCommit repoPath branch) p).2.lastCommitHashes
        k = lookupA p.2.lastCommitHashes k := by
  induction l with
  | nil => intro p; rfl
  | cons c t ih =>
    intro p
    rw [List.foldl_cons, ih]
    exact lookupA_insertA_ne _ _ _ _ (Ne.symm hk)

theorem foldl_processCommit_lookup_last (repoPath branch : String)
    (l : List Commit) (c : Commit) (hlast : l.getLast? = some c) :
    ∀ p : List InternalRepoChange × ScannerState,
      lookupA (l.foldl (processCommit repoPath branch) p).2.lastCommitHashes
        repoPath = some c.hash := by
  induction l with
  | nil => cases hlast
  | cons a t ih =>
    intro p
    match t, ih with
    | [], _ =>
      have : a = c := by
        simpa using hlast
      subst this
      exact lookupA_insertA_self _ _ _
    | b :: t', ih =>
      have hlast' : (b :: t').getLast? = some c := by
        simpa [List.getLast?_cons_cons] using hlast
      exact ih hlast' _

/-- `afterHash h l` is a suffix of `l`. -/
theorem afterHash_suffix (h : String) (l : List Commit) :
    afterHash h l <:+ l := by
  unfold afterHash
  exact (List.drop_suffix _ _).trans (List.dropWhile_suffix _)

theorem afterHash_getLast_eq (h : String) (l : List Commit)
    (hne : afterHash h l ≠ []) :
    (afterHash h l).getLast? = l.getLast? := by
  obtain ⟨pre, hpre⟩ := afterHash_suffix h l
  conv_rhs => rw [← hpre]
  rw [List.getLast?_append_of_ne_nil _ hne]

/-- With pairwise-distinct hashes, nothing follows the last commit. -/
theorem afterHash_getLast_nil (l : List Commit) (c : Commit)
    (hlast : l.getLast? = some c)
    (hnodup : (l.map (fun x => x.hash)).Nodup) :
    afterHash c.hash l = [] := by
  induction l with
  | nil => cases hlast
  | cons a t ih =>
    match t, ih with
    | [], _ =>
      have : a = c := by simpa using hlast
      subst this
      simp [afterHash, List.dropWhile]
    | b :: t', ih =>
      have hlast' : (b :: t').getLast? = some c := by
        simpa [List.getLast?_cons_cons] using hlast
      have hmem : c ∈ b :: t' := by
        obtain ⟨hne', hx⟩ := List.mem_getLast?_eq_getLast (l := b :: t') hlast'
        rw [hx]
        exact List.getLast_mem hne'
      have hnotin : a.hash ∉ (b :: t').map (fun x => x.hash) :=
        (List.nodup_cons.mp (by simpa using hnodup)).1
      have hnodup' : ((b :: t').map (fun x => x.hash)).Nodup :=
        (List.nodup_cons.mp (by simpa using hnodup)).2
      have hane : ¬ a.hash = c.hash := by
        intro heq
        apply hnotin
        rw [heq]
        exact List.mem_map_of_mem _ hmem
      have := ih hlast' hnodup'
      simpa [afterHash, List.dropWhile, hane] using this

/-- C8: `loadState` is a total function into `ScannerState` (so it always
yields all three maps): an absent file (`none`) and an unreadable or
unparseable file (`some none`) both give three empty maps, and a parsed
file of an older schema defaults each missing field to an empty map. -/
theorem loadState_forward_compatible :
    loadState none = emptyScannerState ∧
    loadState (some none) = emptyScannerState ∧
    (∀ p : PartialScannerState,
      loadState (some (some p)) =
        { lastCommitHashes := p.lastCommitHashes.getD []
          lastDiffHashes := p.lastDiffHashes.getD []
          lastUncommittedStats := p.lastUncommittedStats.getD [] }) ∧
    (∀ p : PartialScannerState, p.lastCommitHashes = none →
      (loadState (some (some p))).lastCommitHashes = []) ∧
    (∀ p : PartialScannerState, p.lastDiffHashes = none →
      (loadState (some (some p))).lastDiffHashes = []) ∧
    (∀ p : PartialScannerState, p.lastUncommittedStats = none →
      (loadState (some (some p))).lastUncommittedStats = []) := by
  refine ⟨rfl, rfl, fun p => rfl, fun p h => ?_, fun p h => ?_, fun p h => ?_⟩ <;>
    simp [loadState, h]

/-- Witness for C8 at a concrete partial state file. -/
theorem loadState_forward_compatible_witness :
    (loadState (some (some
      { lastCommitHashes := none
        lastDiffHashes := some [("/r/a", "h")]
        lastUncommittedStats := none }))).lastCommitHashes = [] ∧
    (loadState (some (some
      { lastCommitHashes := none
        lastDiffHashes := some [("/r/a", "h")]
        lastUncommittedStats := none }))).lastUncommittedStats = [] :=
  ⟨loadState_forward_compatible.2.2.2.1 _ rfl,
   loadState_forward_compatible.2.2.2.2.2 _ rfl⟩

/-- C5: `isOvertimeHour` is total and decides in the fixed order
weekend → lunch window → work window, using only the hour component of each
`'HH:MM'` boundary, with defaults work 09:00–18:00 and lunch 12:00–14:00
when the user has no config. -/
theorem isOvertimeHour_fixed_order (userConfigs : List (Nat × UserConfig))
    (userId date hour : Nat) (ws we ls le : Nat)
    (hws : hourComponent (jsOrStr
      ((lookupA userConfigs userId).bind (·.workTimeStart)) "09:00") = ws)
    (hwe : hourComponent (jsOrStr
      ((lookupA userConfigs userId).bind (·.workTimeEnd)) "18:00") = we)
    (hls : hourComponent (jsOrStr
      ((lookupA userConfigs userId).bind (·.lunchStart)) "12:00") = ls)
    (hle : hourComponent (jsOrStr
      ((lookupA userConfigs userId).bind (·.lunchEnd)) "14:00") = le) :
    (isOvertimeHour userConfigs userId date hour =
      if dayOfWeek date = 0 ∨ dayOfWeek date = 6 then true
      else if ls ≤ hour ∧ hour < le then false
      else if hour < ws ∨ hour ≥ we then true
      else false) ∧
    (lookupA userConfigs userId = none →
      ws = 9 ∧ we = 18 ∧ ls = 12 ∧ le = 14) := by
  subst hws hwe hls hle
  refine ⟨rfl, fun h => ?_⟩
  rw [h]
  exact ⟨rfl, rfl, rfl, rfl⟩

/-- Witness for C5: a user with no config, Monday (day 4 since the epoch)
at 19:00 is overtime by the work-window rule. -/
theorem isOvertimeHour_fixed_order_witness :
    isOvertimeHour [] 1 4 19 =
      if dayOfWeek 4 = 0 ∨ dayOfWeek 4 = 6 then true
      else if 12 ≤ 19 ∧ 19 < 14 then false
      else if 19 < 9 ∨ 19 ≥ 18 then true
      else false :=
  (isOvertimeHour_fixed_order [] 1 4 19 9 18 12 14 rfl rfl rfl rfl).1

/-- C2, counterexample: with the default config, activity on Monday
(day 4 since the epoch, a Monday as `dayOfWeek 4 = 1`) at hour 13 does
create the hour-13 bucket with `isOvertime = false` and
`hasActivity = true`, but that bucket DOES contribute to `normalHours`
(`calculateWorkTime` of just this bucket yields `normalHours = 1`, while an
empty bucket list yields 0), contradicting the claim that it contributes to
neither total. -/
theorem lunch_bucket_counts_toward_normalHours :
    dayOfWeek 4 = 1 ∧
    updateWorkHour [] [] 1 { date := 4, hour := 13 } ActivityType.code 1 =
      [{ id := 0, userId := 1, date := 4, hour := 13, hasActivity := true
         codeChanges := 1, webActivities := 0, isOvertime := false }] ∧
    (calculateWorkTime
      [{ id := 0, userId := 1, date := 4, hour := 13, hasActivity := true
         codeChanges := 1, webActivities := 0, isOvertime := false }]).normalHours = 1 ∧
    (calculateWorkTime []).normalHours = 0 := by
  decide

/-- C2, amended: with the default config, activity on Monday at 13:30
creates the hour-13 bucket with `isOvertime = false` and
`hasActivity = true`; appending that bucket to any bucket list increments
`totalHours` and `normalHours` by one and leaves `overtimeHours` unchanged
(so it never counts as overtime, but it does count as a normal active
hour). -/
theorem lunch_bucket_workTime_contribution :
    updateWorkHour [] [] 1 { date := 4, hour := 13 } ActivityType.code 1 =
      [{ id := 0, userId := 1, date := 4, hour := 13, hasActivity := true
         codeChanges := 1, webActivities := 0, isOvertime := false }] ∧
    (∀ hs : List WorkHour,
      (calculateWorkTime (hs ++
        [{ id := 0, userId := 1, date := 4, hour := 13, hasActivity := true
           codeChanges := 1, webActivities := 0, isOvertime := false }])).totalHours =
        (calculateWorkTime hs).totalHours + 1 ∧
      (calculateWorkTime (hs ++
        [{ id := 0, userId := 1, date := 4, hour := 13, hasActivity := true
           codeChanges := 1, webActivities := 0, isOvertime := false }])).normalHours =
        (calculateWorkTime hs).normalHours + 1 ∧
      (calculateWorkTime (hs ++
        [{ id := 0, userId := 1, date := 4, hour := 13, hasActivity := true
           codeChanges := 1, webActivities := 0, isOvertime := false }])).overtimeHours =
        (calculateWorkTime hs).overtimeHours) := by
  refine ⟨by decide, fun hs => ?_⟩
  have hle : (hs.filter (fun a => a.isOvertime && a.hasActivity)).length ≤
      (hs.filter (fun h => h.hasActivity)).length :=
    length_filter_mono _ _ _ (fun a ha => by
      cases h1 : a.hasActivity <;> simp [h1] at ha ⊢)
  refine ⟨?_, ?_, ?_⟩ <;>
    simp [calculateWorkTime, List.filter_append] <;> omega

/-- C6: when the `(userId, date, hour)` bucket already exists,
`updateWorkHour` takes the update branch, which writes only `hasActivity`,
`codeChanges` and `webActivities`; in particular the `isOvertime` column of
every row of the table is unchanged, whatever the user's current config is. -/
theorem updateWorkHour_freezes_isOvertime
    (userConfigs : List (Nat × UserConfig)) (db : List WorkHour)
    (userId : Nat) (recordedAt : Timestamp) (type : ActivityType)
    (count : Nat) (existing : WorkHour)
    (hfind : findWorkHour db userId recordedAt.date recordedAt.hour =
      some existing) :
    updateWorkHour userConfigs db userId recordedAt type count =
      db.map (fun r =>
        if r.id = existing.id then
          { r with
            hasActivity := true
            codeChanges :=
              if type = ActivityType.code then existing.codeChanges + count
              else existing.codeChanges
            webActivities :=
              if type = ActivityType.web then existing.webActivities + count
              else existing.webActivities }
        else r) ∧
    (updateWorkHour userConfigs db userId recordedAt type count).map
        (fun r => r.isOvertime) =
      db.map (fun r => r.isOvertime) := by
  have h1 : updateWorkHour userConfigs db userId recordedAt type count =
      db.map (fun r =>
        if r.id = existing.id then
          { r with
            hasActivity := true
            codeChanges :=
              if type = ActivityType.code then existing.codeChanges + count
              else existing.codeChanges
            webActivities :=
              if type = ActivityType.web then existing.webActivities + count
              else existing.webActivities }
        else r) := by
    unfold updateWorkHour
    dsimp only
    rw [hfind]
  refine ⟨h1, ?_⟩
  rw [h1, List.map_map]
  have h2 : ((fun r : WorkHour => r.isOvertime) ∘ (fun r : WorkHour =>
      if r.id = existing.id then
        { r with
          hasActivity := true
          codeChanges :=
            if type = ActivityType.code then existing.codeChanges + count
            else existing.codeChanges
          webActivities :=
            if type = ActivityType.web then existing.webActivities + count
            else existing.webActivities }
      else r)) = fun r : WorkHour => r.isOvertime := by
    funext r
    by_cases h : r.id = existing.id <;> simp [h]
  rw [h2]

/-- Witness for C6: reporting more activity into an existing bucket leaves
every row's `isOvertime` unchanged. -/
theorem updateWorkHour_freezes_isOvertime_witness :
    (updateWorkHour []
        [{ id := 7, userId := 1, date := 4, hour := 13, hasActivity := true
           codeChanges := 2, webActivities := 0, isOvertime := false }]
        1 { date := 4, hour := 13 } ActivityType.code 3).map
      (fun r => r.isOvertime) =
    ([{ id := 7, userId := 1, date := 4, hour := 13, hasActivity := true
        codeChanges := 2, webActivities := 0, isOvertime := false }] :
      List WorkHour).map (fun r => r.isOvertime) :=
  (updateWorkHour_freezes_isOvertime []
    [{ id := 7, userId := 1, date := 4, hour := 13, hasActivity := true
       codeChanges := 2, webActivities := 0, isOvertime := false }]
    1 { date := 4, hour := 13 } ActivityType.code 3
    { id := 7, userId := 1, date := 4, hour := 13, hasActivity := true
      codeChanges := 2, webActivities := 0, isOvertime := false }
    (by decide)).2

/-- C1: when the working-tree diff is non-empty and its fingerprint differs
from the stored one, `getUncommittedChanges` stores the new fingerprint and
the full current snapshot unconditionally, and emits a record (with
`isCommitted = false`) if and only if the non-negative added-lines or
deleted-lines delta against the previous snapshot (zeros if none stored) is
non-zero; the emitted deltas are `max 0 (current - previous)` for each
field. -/
theorem getUncommittedChanges_incremental (repo : Repo) (state : ScannerState)
    (prev : UncommittedStats) (dA dD dF : Int)
    (hne : ¬ jsTrim repo.diffOutput.toList = [])
    (hfp : ¬ some (hashString repo.diffOutput) =
      lookupA state.lastDiffHashes repo.path)
    (hprev : (lookupA state.lastUncommittedStats repo.path).getD
      { linesAdded := 0, linesDeleted := 0, filesChanged := 0 } = prev)
    (hdA : max 0 (repo.diffStats.linesAdded - prev.linesAdded) = dA)
    (hdD : max 0 (repo.diffStats.linesDeleted - prev.linesDeleted) = dD)
    (hdF : max 0 (repo.diffStats.filesChanged - prev.filesChanged) = dF) :
    lookupA (getUncommittedChanges repo state).2.lastDiffHashes repo.path =
      some (hashString repo.diffOutput) ∧
    lookupA (getUncommittedChanges repo state).2.lastUncommittedStats
      repo.path = some repo.diffStats ∧
    ((getUncommittedChanges repo state).1.isSome ↔ (dA ≠ 0 ∨ dD ≠ 0)) ∧
    (∀ rc, (getUncommittedChanges repo state).1 = some rc →
      rc.linesAdded = dA ∧ rc.linesDeleted = dD ∧ rc.filesChanged = dF ∧
      rc.isCommitted = false ∧ rc.repoName = basename repo.path ∧
      rc._repoPath = repo.path) := by
  subst hprev hdA hdD hdF
  unfold getUncommittedChanges
  dsimp only
  rw [if_neg hne, if_neg hfp]
  split_ifs with h
  · refine ⟨lookupA_insertA_self _ _ _, lookupA_insertA_self _ _ _, ?_, ?_⟩
    · simp [h.1, h.2]
    · intro rc hrc
      exact absurd hrc (by simp)
  · refine ⟨lookupA_insertA_self _ _ _, lookupA_insertA_self _ _ _, ?_, ?_⟩
    · simp only [Option.isSome_some, true_iff]
      tauto
    · intro rc hrc
      rw [Option.some.injEq] at hrc
      subst hrc
      exact ⟨rfl, rfl, rfl, rfl, rfl, rfl⟩

/-- Witness for C1, the spec scenario: the uncommitted diff grew from
10 insertions, 2 deletions to 15 insertions, 2 deletions (3 files both
times), with a changed diff text: the deltas are 5 added, 0 deleted,
0 files, so a record is emitted, and fingerprint and snapshot are stored. -/
theorem getUncommittedChanges_incremental_witness :
    lookupA (getUncommittedChanges
        { path := "/r/a", branch := "main", commits := []
          diffOutput := "diff-v2"
          diffStats := { linesAdded := 15, linesDeleted := 2, filesChanged := 3 } }
        { lastCommitHashes := []
          lastDiffHashes := [("/r/a", "diff-v1")]
          lastUncommittedStats :=
            [("/r/a", { linesAdded := 10, linesDeleted := 2, filesChanged := 3 })] }).2.lastDiffHashes
      "/r/a" = some (hashString "diff-v2") ∧
    lookupA (getUncommittedChanges
        { path := "/r/a", branch := "main", commits := []
          diffOutput := "diff-v2"
          diffStats := { linesAdded := 15, linesDeleted := 2, filesChanged := 3 } }
        { lastCommitHashes := []
          lastDiffHashes := [("/r/a", "diff-v1")]
          lastUncommittedStats :=
            [("/r/a", { linesAdded := 10, linesDeleted := 2, filesChanged := 3 })] }).2.lastUncommittedStats
      "/r/a" = some { linesAdded := 15, linesDeleted := 2, filesChanged := 3 } ∧
    ((getUncommittedChanges
        { path := "/r/a", branch := "main", commits := []
          diffOutput := "diff-v2"
          diffStats := { linesAdded := 15, linesDeleted := 2, filesChanged := 3 } }
        { lastCommitHashes := []
          lastDiffHashes := [("/r/a", "diff-v1")]
          lastUncommittedStats :=
            [("/r/a", { linesAdded := 10, linesDeleted := 2, filesChanged := 3 })] }).1.isSome ↔
      ((5 : Int) ≠ 0 ∨ (0 : Int) ≠ 0)) ∧
    (∀ rc, (getUncommittedChanges
        { path := "/r/a", branch := "main", commits := []
          diffOutput := "diff-v2"
          diffStats := { linesAdded := 15, linesDeleted := 2, filesChanged := 3 } }
        { lastCommitHashes := []
          lastDiffHashes := [("/r/a", "diff-v1")]
          lastUncommittedStats :=
            [("/r/a", { linesAdded := 10, linesDeleted := 2, filesChanged := 3 })] }).1 =
        some rc →
      rc.linesAdded = 5 ∧ rc.linesDeleted = 0 ∧ rc.filesChanged = 0 ∧
      rc.isCommitted = false ∧ rc.repoName = basename "/r/a" ∧
      rc._repoPath = "/r/a") :=
  getUncommittedChanges_incremental
    { path := "/r/a", branch := "main", commits := []
      diffOutput := "diff-v2"
      diffStats := { linesAdded := 15, linesDeleted := 2, filesChanged := 3 } }
    { lastCommitHashes := []
      lastDiffHashes := [("/r/a", "diff-v1")]
      lastUncommittedStats :=
        [("/r/a", { linesAdded := 10, linesDeleted := 2, filesChanged := 3 })] }
    { linesAdded := 10, linesDeleted := 2, filesChanged := 3 } 5 0 0
    (by decide) (by decide) (by decide) (by decide) (by decide) (by decide)

/-- C7: the per-commit step of `getNewCommits` emits no record for a commit
whose parsed stat reports zero changed files (which includes any stat
output the regex cannot match), yet still advances the stored last-commit
hash to that commit's hash. -/
theorem processCommit_zero_files_advances_cursor
    (repoPath branch : String) (acc : List InternalRepoChange × ScannerState)
    (commit : Commit)
    (hzero : (parseGitStats commit.showOutput).filesChanged = 0) :
    (processCommit repoPath branch acc commit).1 = acc.1 ∧
    lookupA (processCommit repoPath branch acc commit).2.lastCommitHashes
      repoPath = some commit.hash := by
  constructor
  · simp [processCommit, hzero]
  · simp [processCommit, lookupA_insertA_self]

/-- Witness for C7: a commit whose `git show --stat` output has no
parseable summary line (all-zero stats) adds nothing to the accumulated
records but still moves the cursor to its hash. -/
theorem processCommit_zero_files_advances_cursor_witness :
    (processCommit "/r/a" "main"
        ([⟨⟨"a", "main", 1, 1, 1, true, some "A"⟩, "/r/a"⟩],
         { lastCommitHashes := [("/r/a", "A")], lastDiffHashes := []
           lastUncommittedStats := [] })
        { hash := "B", timestamp := 5, showOutput := "no stat line" }).1 =
      [⟨⟨"a", "main", 1, 1, 1, true, some "A"⟩, "/r/a"⟩] ∧
    lookupA (processCommit "/r/a" "main"
        ([⟨⟨"a", "main", 1, 1, 1, true, some "A"⟩, "/r/a"⟩],
         { lastCommitHashes := [("/r/a", "A")], lastDiffHashes := []
           lastUncommittedStats := [] })
        { hash := "B", timestamp := 5, showOutput := "no stat line" }).2.lastCommitHashes
      "/r/a" = some "B" :=
  processCommit_zero_files_advances_cursor "/r/a" "main"
    ([⟨⟨"a", "main", 1, 1, 1, true, some "A"⟩, "/r/a"⟩],
     { lastCommitHashes := [("/r/a", "A")], lastDiffHashes := []
       lastUncommittedStats := [] })
    { hash := "B", timestamp := 5, showOutput := "no stat line" }
    (by decide)

/-- C4, counterexample: commit `B` is strictly after the stored hash `A`,
but its stat output parses to zero changed files (an empty commit), so the
scan emits NO record for it — contradicting "emits ChangeRecords exactly
for the commits strictly after that hash" — while the stored hash still
advances to `B`. -/
theorem getNewCommits_zero_stat_counterexample :
    afterHash "A"
      [{ hash := "A", timestamp := 0
         showOutput := " 1 file changed, 1 insertion(+)" },
       { hash := "B", timestamp := 1, showOutput := "" }] =
      [{ hash := "B", timestamp := 1, showOutput := "" }] ∧
    (getNewCommits 99
      { path := "/r/a", branch := "main"
        commits :=
          [{ hash := "A", timestamp := 0
             showOutput := " 1 file changed, 1 insertion(+)" },
           { hash := "B", timestamp := 1, showOutput := "" }]
        diffOutput := ""
        diffStats := { linesAdded := 0, linesDeleted := 0, filesChanged := 0 } }
      { lastCommitHashes := [("/r/a", "A")], lastDiffHashes := []
        lastUncommittedStats := [] }).1 = [] ∧
    lookupA (getNewCommits 99
      { path := "/r/a", branch := "main"
        commits :=
          [{ hash := "A", timestamp := 0
             showOutput := " 1 file changed, 1 insertion(+)" },
           { hash := "B", timestamp := 1, showOutput := "" }]
        diffOutput := ""
        diffStats := { linesAdded := 0, linesDeleted := 0, filesChanged := 0 } }
      { lastCommitHashes := [("/r/a", "A")], lastDiffHashes := []
        lastUncommittedStats := [] }).2.lastCommitHashes "/r/a" =
      some "B" := by
  decide

/-- C4, amended: when the stored last-commit hash still resolves, a scan
emits `isCommitted = true` records, oldest first, exactly for the commits
strictly after that hash WHOSE DIFF STAT REPORTS AT LEAST ONE CHANGED FILE,
each carrying its commit hash; if nothing follows the hash the state is
untouched, and otherwise the stored hash afterwards is the newest commit
after it. -/
theorem getNewCommits_emits_strictly_newer (now : Nat) (repo : Repo)
    (state : ScannerState) (lastHash : String)
    (hstored : lookupA state.lastCommitHashes repo.path = some lastHash)
    (hres : lastHash ∈ repo.commits.map (fun c => c.hash)) :
    (getNewCommits now repo state).1 =
      (afterHash lastHash repo.commits).filterMap (fun c =>
        if (parseGitStats c.showOutput).filesChanged > 0 then
          some (commitRecord repo.path repo.branch c)
        else none) ∧
    (∀ c : Commit, (commitRecord repo.path repo.branch c).isCommitted = true ∧
      (commitRecord repo.path repo.branch c).commitHash = some c.hash) ∧
    (afterHash lastHash repo.commits = [] →
      (getNewCommits now repo state).2 = state) ∧
    (∀ last, (afterHash lastHash repo.commits).getLast? = some last →
      lookupA (getNewCommits now repo state).2.lastCommitHashes repo.path =
        some last.hash) := by
  have hany : repo.commits.any (fun c => c.hash = lastHash) = true := by
    rw [List.any_eq_true]
    obtain ⟨c, hc, hchash⟩ := List.mem_map.mp hres
    exact ⟨c, hc, by simp [hchash]⟩
  have hlog : commitLog now repo state = logFrom lastHash repo := by
    simp [commitLog, hstored, hany]
  have hcommits : (commitLog now repo state).reverse =
      afterHash lastHash repo.commits := by
    rw [hlog]
    unfold logFrom
    exact List.reverse_reverse _
  refine ⟨?_, fun c => ⟨rfl, rfl⟩, ?_, ?_⟩
  · rw [getNewCommits, hcommits,
      foldl_processCommit_records repo.path repo.branch _ ([], state)]
    rfl
  · intro h0
    rw [getNewCommits, hcommits, h0]
    rfl
  · intro last hlast
    rw [getNewCommits, hcommits]
    exact foldl_processCommit_lookup_last repo.path repo.branch _ last hlast _

/-- Witness for C4, the spec scenario: commits `A, B, C` scanned when only
`A` was seen before emit records for `B` then `C` (both non-empty) and the
stored hash becomes `C`. -/
theorem getNewCommits_emits_strictly_newer_witness :
    (getNewCommits 0
      { path := "/r/p", branch := "main"
        commits :=
          [{ hash := "A", timestamp := 0
             showOutput := " 1 file changed, 1 insertion(+)" },
           { hash := "B", timestamp := 1
             showOutput := " 2 files changed, 3 insertions(+), 1 deletion(-)" },
           { hash := "C", timestamp := 2
             showOutput := " 1 file changed, 4 deletions(-)" }]
        diffOutput := ""
        diffStats := { linesAdded := 0, linesDeleted := 0, filesChanged := 0 } }
      { lastCommitHashes := [("/r/p", "A")], lastDiffHashes := []
        lastUncommittedStats := [] }).1 =
      [commitRecord "/r/p" "main"
        { hash := "B", timestamp := 1
          showOutput := " 2 files changed, 3 insertions(+), 1 deletion(-)" },
       commitRecord "/r/p" "main"
        { hash := "C", timestamp := 2
          showOutput := " 1 file changed, 4 deletions(-)" }] ∧
    lookupA (getNewCommits 0
      { path := "/r/p", branch := "main"
        commits :=
          [{ hash := "A", timestamp := 0
             showOutput := " 1 file changed, 1 insertion(+)" },
           { hash := "B", timestamp := 1
             showOutput := " 2 files changed, 3 insertions(+), 1 deletion(-)" },
           { hash := "C", timestamp := 2
             showOutput := " 1 file changed, 4 deletions(-)" }]
        diffOutput := ""
        diffStats := { linesAdded := 0, linesDeleted := 0, filesChanged := 0 } }
      { lastCommitHashes := [("/r/p", "A")], lastDiffHashes := []
        lastUncommittedStats := [] }).2.lastCommitHashes "/r/p" =
      some "C" := by
  have h := getNewCommits_emits_strictly_newer 0
    { path := "/r/p", branch := "main"
      commits :=
        [{ hash := "A", timestamp := 0
           showOutput := " 1 file changed, 1 insertion(+)" },
         { hash := "B", timestamp := 1
           showOutput := " 2 files changed, 3 insertions(+), 1 deletion(-)" },
         { hash := "C", timestamp := 2
           showOutput := " 1 file changed, 4 deletions(-)" }]
      diffOutput := ""
      diffStats := { linesAdded := 0, linesDeleted := 0, filesChanged := 0 } }
    { lastCommitHashes := [("/r/p", "A")], lastDiffHashes := []
      lastUncommittedStats := [] }
    "A" (by decide) (by decide)
  refine ⟨?_, h.2.2.2
    { hash := "C", timestamp := 2
      showOutput := " 1 file changed, 4 deletions(-)" } (by decide)⟩
  rw [h.1]
  decide

theorem getUncommittedChanges_record_shape (repo : Repo) (s : ScannerState)
    (rc : InternalRepoChange) (hrc : (getUncommittedChanges repo s).1 = some rc) :
    rc.repoName = basename repo.path ∧ rc._repoPath = repo.path := by
  unfold getUncommittedChanges at hrc
  dsimp only at hrc
  split_ifs at hrc
  all_goals cases hrc
  all_goals exact ⟨rfl, rfl⟩

theorem getNewCommits_records_shape (now : Nat) (repo : Repo)
    (s : ScannerState) :
    ∀ rc ∈ (getNewCommits now repo s).1,
      rc.repoName = basename repo.path ∧ rc._repoPath = repo.path := by
  intro rc hrc
  rw [getNewCommits,
    foldl_processCommit_records repo.path repo.branch _ ([], s)] at hrc
  simp only [List.nil_append, List.mem_filterMap] at hrc
  obtain ⟨c, _, hc⟩ := hrc
  by_cases h : (parseGitStats c.showOutput).filesChanged > 0
  · rw [if_pos h, Option.some.injEq] at hc
    subst hc
    exact ⟨rfl, rfl⟩
  · rw [if_neg h] at hc
    cases hc

theorem scanRepoStep_records_shape (now : Nat)
    (acc : List InternalRepoChange × ScannerState) (repo : Repo) :
    ∀ rc ∈ (scanRepoStep now acc repo).1,
      rc ∈ acc.1 ∨
        (rc.repoName = basename rc._repoPath ∧ rc._repoPath = repo.path) := by
  intro rc hrc
  unfold scanRepoStep at hrc
  dsimp only at hrc
  rw [List.append_assoc, List.mem_append] at hrc
  rcases hrc with hacc | hnew
  · exact Or.inl hacc
  · right
    rw [List.mem_append] at hnew
    rcases hnew with hcommit | huncommitted
    · obtain ⟨h1, h2⟩ := getNewCommits_records_shape now repo acc.2 rc hcommit
      exact ⟨h2 ▸ h1, h2⟩
    · rcases ho : (getUncommittedChanges repo (getNewCommits now repo acc.2).2).1
        with _ | u
      · rw [ho] at huncommitted
        cases huncommitted
      · rw [ho] at huncommitted
        have : rc = u := by simpa [Option.toList] using huncommitted
        subst this
        obtain ⟨h1, h2⟩ := getUncommittedChanges_record_shape repo _ rc ho
        exact ⟨h2 ▸ h1, h2⟩

theorem scanInternal_fold_records_shape (cfg : ScannerConfig) (now : Nat) :
    ∀ (repos : List Repo) (acc : List InternalRepoChange × ScannerState),
      ∀ rc ∈ (repos.foldl
          (fun acc repo =>
            if isExcluded cfg repo.path then acc else scanRepoStep now acc repo)
          acc).1,
        rc ∈ acc.1 ∨
          (rc.repoName = basename rc._repoPath ∧
            ∃ r ∈ repos, rc._repoPath = r.path) := by
  intro repos
  induction repos with
  | nil => intro acc rc hrc; exact Or.inl hrc
  | cons r rest ih =>
    intro acc rc hrc
    rw [List.foldl_cons] at hrc
    rcases ih _ rc hrc with hstep | ⟨h1, r', hr', h2⟩
    · by_cases hex : isExcluded cfg r.path
      · rw [if_pos hex] at hstep
        exact Or.inl hstep
      · rw [if_neg hex] at hstep
        rcases scanRepoStep_records_shape now acc r rc hstep with hacc | ⟨h1, h2⟩
        · exact Or.inl hacc
        · exact Or.inr ⟨h1, r, List.mem_cons_self r rest, h2⟩
    · exact Or.inr ⟨h1, r', List.mem_cons_of_mem r hr', h2⟩

/-- C9: `scanRepositories` returns exactly the internal records with the
`_repoPath` field stripped (`toRepoChange` does not depend on `_repoPath`,
and `RepoChange` has no path field), and every internal record's `repoName`
is the basename of the scanned repository's directory. -/
theorem scanRepositories_only_basenames (cfg : ScannerConfig) (now : Nat)
    (repos : List Repo) (state : ScannerState) :
    (scanRepositories cfg now repos state).1 =
      (scanInternal cfg now repos state).1.map (fun ic => ic.toRepoChange) ∧
    (∀ ic ∈ (scanInternal cfg now repos state).1,
      ic.repoName = basename ic._repoPath ∧ ∃ r ∈ repos, ic._repoPath = r.path) ∧
    (∀ (ic : InternalRepoChange) (p q : String),
      ({ ic with _repoPath := p } : InternalRepoChange).toRepoChange =
        ({ ic with _repoPath := q } : InternalRepoChange).toRepoChange) := by
  refine ⟨rfl, ?_, fun ic p q => rfl⟩
  intro ic hic
  rcases scanInternal_fold_records_shape cfg now repos ([], state) ic hic with
    habs | hshape
  · cases habs
  · exact hshape

/-- Witness for C9: a concrete scan of a repository at `/home/u/proj` whose
emitted record names only `proj`. -/
theorem scanRepositories_only_basenames_witness :
    (⟨⟨"proj", "main", 3, 1, 2, true, some "B"⟩, "/home/u/proj"⟩ :
        InternalRepoChange).repoName =
      basename (⟨⟨"proj", "main", 3, 1, 2, true, some "B"⟩, "/home/u/proj"⟩ :
        InternalRepoChange)._repoPath ∧
    ∃ r ∈ [({ path := "/home/u/proj", branch := "main"
              commits :=
                [{ hash := "A", timestamp := 0
                   showOutput := " 1 file changed, 1 insertion(+)" },
                 { hash := "B", timestamp := 1
                   showOutput := " 2 files changed, 3 insertions(+), 1 deletion(-)" }]
              diffOutput := ""
              diffStats := { linesAdded := 0, linesDeleted := 0, filesChanged := 0 } } :
        Repo)],
      (⟨⟨"proj", "main", 3, 1, 2, true, some "B"⟩, "/home/u/proj"⟩ :
        InternalRepoChange)._repoPath = r.path :=
  (scanRepositories_only_basenames { excludePatterns := [] } 0
    [{ path := "/home/u/proj", branch := "main"
       commits :=
         [{ hash := "A", timestamp := 0
            showOutput := " 1 file changed, 1 insertion(+)" },
          { hash := "B", timestamp := 1
            showOutput := " 2 files changed, 3 insertions(+), 1 deletion(-)" }]
       diffOutput := ""
       diffStats := { linesAdded := 0, linesDeleted := 0, filesChanged := 0 } }]
    { lastCommitHashes := [("/home/u/proj", "A")], lastDiffHashes := []
      lastUncommittedStats := [] }).2.1
    ⟨⟨"proj", "main", 3, 1, 2, true, some "B"⟩, "/home/u/proj"⟩ (by decide)

/-- The guard of the counting loop of `calculateOvertimeStats`. -/
def qualifiesOvertime (wh : WorkHour) : Bool :=
  wh.hasActivity && wh.isOvertime

/-- The weekend test of `calculateOvertimeStats`, as a boolean. -/
def isWeekendDate (d : Nat) : Bool :=
  dayOfWeek d = 0 ∨ dayOfWeek d = 6

theorem lookupA_map_pair_zero (l : List Nat) (d : Nat) :
    lookupA (l.map (fun x => (x, (0 : Nat)))) d =
      if d ∈ l then some 0 else none := by
  induction l with
  | nil => simp [lookupA]
  | cons a t ih =>
    by_cases h : a = d
    · simp [lookupA, h]
    · simp [lookupA, h, ih, Ne.symm h]

theorem sumVals_insertA_succ (m : List (Nat × Nat)) (k v : Nat)
    (h : lookupA m k = some v) :
    sumVals (insertA m k (v + 1)) = sumVals m + 1 := by
  induction m with
  | nil => cases h
  | cons e t ih =>
    by_cases he : e.1 = k
    · have hv : e.2 = v := by
        simpa [lookupA, he] using h
      simp [insertA, he, sumVals, hv]
      omega
    · have ht : lookupA t k = some v := by
        simpa [lookupA, he] using h
      simp [insertA, he, sumVals] at ih ⊢
      rw [ih ht]
      omega

theorem overtimeStep_weekday (acc : List (Nat × Nat) × List (Nat × Nat) × Nat × Nat)
    (wh : WorkHour) :
    (overtimeStep acc wh).2.2.1 =
      acc.2.2.1 +
        (if qualifiesOvertime wh && !isWeekendDate wh.date then 1 else 0) := by
  unfold overtimeStep qualifiesOvertime isWeekendDate
  by_cases hq : wh.hasActivity && wh.isOvertime
  · by_cases hw : dayOfWeek wh.date = 0 ∨ dayOfWeek wh.date = 6 <;>
      simp [hq, hw]
  · simp [hq]

theorem overtimeStep_weekend (acc : List (Nat × Nat) × List (Nat × Nat) × Nat × Nat)
    (wh : WorkHour) :
    (overtimeStep acc wh).2.2.2 =
      acc.2.2.2 +
        (if qualifiesOvertime wh && isWeekendDate wh.date then 1 else 0) := by
  unfold overtimeStep qualifiesOvertime isWeekendDate
  by_cases hq : wh.hasActivity && wh.isOvertime
  · by_cases hw : dayOfWeek wh.date = 0 ∨ dayOfWeek wh.date = 6 <;>
      simp [hq, hw]
  · simp [hq]

theorem overtimeStep_daily_isSome
    (acc : List (Nat × Nat) × List (Nat × Nat) × Nat × Nat) (wh : WorkHour)
    (d : Nat) :
    (lookupA (overtimeStep acc wh).1 d).isSome = (lookupA acc.1 d).isSome := by
  unfold overtimeStep
  by_cases hq : wh.hasActivity && wh.isOvertime
  · rcases hl : lookupA acc.1 wh.date with _ | v
    · by_cases hw : dayOfWeek wh.date = 0 ∨ dayOfWeek wh.date = 6 <;>
        simp [hq, hw, hl]
    · by_cases hd : wh.date = d
      · subst hd
        by_cases hw : dayOfWeek wh.date = 0 ∨ dayOfWeek wh.date = 6 <;>
          simp [hq, hw, hl, lookupA_insertA_self]
      · by_cases hw : dayOfWeek wh.date = 0 ∨ dayOfWeek wh.date = 6 <;>
          simp [hq, hw, hl, lookupA_insertA_ne _ _ _ _ hd]
  · simp [hq]

theorem overtimeStep_daily_sumVals
    (acc : List (Nat × Nat) × List (Nat × Nat) × Nat × Nat) (wh : WorkHour) :
    sumVals (overtimeStep acc wh).1 =
      sumVals acc.1 +
        (if qualifiesOvertime wh && (lookupA acc.1 wh.date).isSome then 1
         else 0) := by
  unfold overtimeStep qualifiesOvertime
  by_cases hq : wh.hasActivity && wh.isOvertime
  · rcases hl : lookupA acc.1 wh.date with _ | v
    · by_cases hw : dayOfWeek wh.date = 0 ∨ dayOfWeek wh.date = 6 <;>
        simp [hq, hw, hl]
    · by_cases hw : dayOfWeek wh.date = 0 ∨ dayOfWeek wh.date = 6 <;>
        simp [hq, hw, hl, sumVals_insertA_succ _ _ _ hl]
  · simp [hq]

theorem overtimeStep_byHour
    (acc : List (Nat × Nat) × List (Nat × Nat) × Nat × Nat) (wh : WorkHour)
    (h : Nat) :
    (lookupA (overtimeStep acc wh).2.1 h).getD 0 =
      (lookupA acc.2.1 h).getD 0 +
        (if qualifiesOvertime wh && (wh.hour = h) then 1 else 0) := by
  unfold overtimeStep qualifiesOvertime
  by_cases hq : wh.hasActivity && wh.isOvertime
  · by_cases hd : wh.hour = h
    · subst hd
      by_cases hw : dayOfWeek wh.date = 0 ∨ dayOfWeek wh.date = 6 <;>
        simp [hq, hw, lookupA_insertA_self]
    · by_cases hw : dayOfWeek wh.date = 0 ∨ dayOfWeek wh.date = 6 <;>
        simp [hq, hw, hd, lookupA_insertA_ne _ _ _ _ hd]
  · simp [hq]

theorem foldl_overtimeStep_spec (l : List WorkHour) :
    ∀ acc : List (Nat × Nat) × List (Nat × Nat) × Nat × Nat,
      (l.foldl overtimeStep acc).2.2.1 =
        acc.2.2.1 + (l.filter
          (fun wh => qualifiesOvertime wh && !isWeekendDate wh.date)).length ∧
      (l.foldl overtimeStep acc).2.2.2 =
        acc.2.2.2 + (l.filter
          (fun wh => qualifiesOvertime wh && isWeekendDate wh.date)).length ∧
      (∀ d, (lookupA (l.foldl overtimeStep acc).1 d).isSome =
        (lookupA acc.1 d).isSome) ∧
      sumVals (l.foldl overtimeStep acc).1 =
        sumVals acc.1 + (l.filter
          (fun wh => qualifiesOvertime wh &&
            (lookupA acc.1 wh.date).isSome)).length ∧
      (∀ h, (lookupA (l.foldl overtimeStep acc).2.1 h).getD 0 =
        (lookupA acc.2.1 h).getD 0 + (l.filter
          (fun wh => qualifiesOvertime wh && (wh.hour = h))).length) := by
  induction l with
  | nil => intro acc; simp
  | cons wh t ih =>
    intro acc
    rw [List.foldl_cons]
    obtain ⟨iha, ihb, ihc, ihd, ihe⟩ := ih (overtimeStep acc wh)
    refine ⟨?_, ?_, ?_, ?_, ?_⟩
    · rw [iha, overtimeStep_weekday, List.filter_cons]
      split_ifs with hc <;> simp <;> omega
    · rw [ihb, overtimeStep_weekend, List.filter_cons]
      split_ifs with hc <;> simp <;> omega
    · intro d
      rw [ihc d, overtimeStep_daily_isSome]
    · rw [ihd, overtimeStep_daily_sumVals, List.filter_cons]
      have hfe : t.filter (fun x => qualifiesOvertime x &&
            (lookupA (overtimeStep acc wh).1 x.date).isSome) =
          t.filter (fun x => qualifiesOvertime x &&
            (lookupA acc.1 x.date).isSome) := by
        apply List.filter_congr
        intro x _
        rw [overtimeStep_daily_isSome]
      rw [hfe]
      split_ifs with hc <;> simp <;> omega
    · intro h
      rw [ihe h, overtimeStep_byHour, List.filter_cons]
      split_ifs with hc <;> simp <;> omega

theorem lookupA_dailyInit (s n d : Nat) :
    lookupA ((List.range n).map (fun i => (s + i, (0 : Nat)))) d =
      if s ≤ d ∧ d < s + n then some 0 else none := by
  have h1 : (List.range n).map (fun i => (s + i, (0 : Nat))) =
      ((List.range n).map (fun i => s + i)).map (fun x => (x, 0)) := by
    rw [List.map_map]
    rfl
  rw [h1, lookupA_map_pair_zero]
  by_cases h : s ≤ d ∧ d < s + n
  · rw [if_pos h, if_pos]
    rw [List.mem_map]
    exact ⟨d - s, List.mem_range.mpr (by omega), by omega⟩
  · rw [if_neg h, if_neg]
    intro hmem
    obtain ⟨i, hi, hie⟩ := List.mem_map.mp hmem
    rw [List.mem_range] at hi
    exact h (by omega)

theorem length_filter_bool_split {α : Type} (l : List α) (p q : α → Bool) :
    (l.filter (fun a => p a && !q a)).length +
      (l.filter (fun a => p a && q a)).length = (l.filter p).length := by
  induction l with
  | nil => simp
  | cons a t ih =>
    cases hp : p a <;> cases hq : q a <;>
      simp [List.filter_cons, hp, hq] <;> omega

/-- C10: in `calculateOvertimeStats`, every bucket with `hasActivity` and
`isOvertime` counts toward `totalOvertimeHours`, the weekday/weekend split
and `overtimeByHour` regardless of the date range, while `dailyOvertime`
counts only buckets whose date lies in `[startDate, endDate]`; hence the
grand total is the weekday+weekend sum, is at least the sum of the daily
values, with equality when every qualifying bucket is in range. -/
theorem calculateOvertimeStats_range (workHours : List WorkHour)
    (startDate endDate : Nat) :
    (calculateOvertimeStats workHours startDate endDate).totalOvertimeHours =
      (calculateOvertimeStats workHours startDate endDate).weekdayOvertimeHours +
        (calculateOvertimeStats workHours startDate endDate).weekendOvertimeHours ∧
    (calculateOvertimeStats workHours startDate endDate).weekdayOvertimeHours =
      (workHours.filter (fun wh =>
        qualifiesOvertime wh && !isWeekendDate wh.date)).length ∧
    (calculateOvertimeStats workHours startDate endDate).weekendOvertimeHours =
      (workHours.filter (fun wh =>
        qualifiesOvertime wh && isWeekendDate wh.date)).length ∧
    (calculateOvertimeStats workHours startDate endDate).totalOvertimeHours =
      (workHours.filter qualifiesOvertime).length ∧
    (∀ h, (lookupA (calculateOvertimeStats workHours startDate
        endDate).overtimeByHour h).getD 0 =
      (workHours.filter (fun wh =>
        qualifiesOvertime wh && (wh.hour = h))).length) ∧
    sumVals (calculateOvertimeStats workHours startDate endDate).dailyOvertime =
      (workHours.filter (fun wh => qualifiesOvertime wh &&
        (decide (startDate ≤ wh.date) && decide (wh.date ≤ endDate)))).length ∧
    sumVals (calculateOvertimeStats workHours startDate endDate).dailyOvertime ≤
      (calculateOvertimeStats workHours startDate endDate).totalOvertimeHours ∧
    ((∀ wh ∈ workHours, qualifiesOvertime wh = true →
        startDate ≤ wh.date ∧ wh.date ≤ endDate) →
      sumVals (calculateOvertimeStats workHours startDate
        endDate).dailyOvertime =
        (calculateOvertimeStats workHours startDate
          endDate).totalOvertimeHours) := by
  obtain ⟨ha, hb, hc, hd, he⟩ := foldl_overtimeStep_spec workHours
    ((List.range (endDate + 1 - startDate)).map (fun i => (startDate + i, 0)),
     (List.range 24).map (fun h => (h, 0)), 0, 0)
  dsimp only at ha hb hc hd he
  have hsum0 : sumVals ((List.range (endDate + 1 - startDate)).map
      (fun i => (startDate + i, (0 : Nat)))) = 0 := by
    unfold sumVals
    apply List.sum_eq_zero
    intro x hx
    rw [List.map_map] at hx
    obtain ⟨i, _, rfl⟩ := List.mem_map.mp hx
    rfl
  have hb0 : ∀ h, (lookupA ((List.range 24).map
      (fun x => (x, (0 : Nat)))) h).getD 0 = 0 := by
    intro h
    rw [lookupA_map_pair_zero]
    split_ifs <;> rfl
  have hprofile : ∀ d, (lookupA ((List.range (endDate + 1 - startDate)).map
      (fun i => (startDate + i, (0 : Nat)))) d).isSome =
      (decide (startDate ≤ d) && decide (d ≤ endDate)) := by
    intro d
    rw [lookupA_dailyInit]
    by_cases h : startDate ≤ d ∧ d < startDate + (endDate + 1 - startDate)
    · rw [if_pos h]
      have h1 : startDate ≤ d := h.1
      have h2 : d ≤ endDate := by omega
      simp [h1, h2]
    · rw [if_neg h]
      by_cases h1 : startDate ≤ d
      · have h2 : ¬ d ≤ endDate := by omega
        simp [h2]
      · simp [h1]
  have h2 : (calculateOvertimeStats workHours startDate
      endDate).weekdayOvertimeHours =
      (workHours.filter (fun wh =>
        qualifiesOvertime wh && !isWeekendDate wh.date)).length := by
    simp only [calculateOvertimeStats]
    rw [ha]
    simp
  have h3 : (calculateOvertimeStats workHours startDate
      endDate).weekendOvertimeHours =
      (workHours.filter (fun wh =>
        qualifiesOvertime wh && isWeekendDate wh.date)).length := by
    simp only [calculateOvertimeStats]
    rw [hb]
    simp
  have h4 : (calculateOvertimeStats workHours startDate
      endDate).totalOvertimeHours =
      (workHours.filter qualifiesOvertime).length := by
    simp only [calculateOvertimeStats]
    rw [ha, hb]
    simpa using length_filter_bool_split workHours qualifiesOvertime
      (fun wh => isWeekendDate wh.date)
  have h5 : ∀ h, (lookupA (calculateOvertimeStats workHours startDate
      endDate).overtimeByHour h).getD 0 =
      (workHours.filter (fun wh =>
        qualifiesOvertime wh && (wh.hour = h))).length := by
    intro h
    simp only [calculateOvertimeStats]
    rw [he h, hb0 h]
    simp
  have h6 : sumVals (calculateOvertimeStats workHours startDate
      endDate).dailyOvertime =
      (workHours.filter (fun wh => qualifiesOvertime wh &&
        (decide (startDate ≤ wh.date) && decide (wh.date ≤ endDate)))).length := by
    simp only [calculateOvertimeStats]
    rw [hd, hsum0]
    have hcong : workHours.filter (fun wh => qualifiesOvertime wh &&
        (lookupA ((List.range (endDate + 1 - startDate)).map
          (fun i => (startDate + i, (0 : Nat)))) wh.date).isSome) =
        workHours.filter (fun wh => qualifiesOvertime wh &&
          (decide (startDate ≤ wh.date) && decide (wh.date ≤ endDate))) := by
      apply List.filter_congr
      intro x _
      rw [hprofile x.date]
    rw [hcong]
    simp
  have h7 : sumVals (calculateOvertimeStats workHours startDate
      endDate).dailyOvertime ≤
      (calculateOvertimeStats workHours startDate endDate).totalOvertimeHours := by
    rw [h6, h4]
    apply length_filter_mono
    intro a hpa
    rw [Bool.and_eq_true] at hpa
    exact hpa.1
  refine ⟨rfl, h2, h3, h4, h5, h6, h7, ?_⟩
  intro hall
  rw [h6, h4]
  congr 1
  apply List.filter_congr
  intro x hx
  cases hq : qualifiesOvertime x
  · simp
  · obtain ⟨hx1, hx2⟩ := hall x hx hq
    simp [hx1, hx2]

/-- Witness for C10: one qualifying weekend bucket inside the range
`[4, 6]` makes the daily sum equal the total, and `overtimeByHour` counts
it at its hour. -/
theorem calculateOvertimeStats_range_witness :
    sumVals (calculateOvertimeStats
      [{ id := 0, userId := 1, date := 5, hour := 20, hasActivity := true
         codeChanges := 1, webActivities := 0, isOvertime := true }]
      4 6).dailyOvertime =
      (calculateOvertimeStats
        [{ id := 0, userId := 1, date := 5, hour := 20, hasActivity := true
           codeChanges := 1, webActivities := 0, isOvertime := true }]
        4 6).totalOvertimeHours ∧
    (lookupA (calculateOvertimeStats
      [{ id := 0, userId := 1, date := 5, hour := 20, hasActivity := true
         codeChanges := 1, webActivities := 0, isOvertime := true }]
      4 6).overtimeByHour 20).getD 0 =
      (([{ id := 0, userId := 1, date := 5, hour := 20, hasActivity := true
           codeChanges := 1, webActivities := 0, isOvertime := true }] :
         List WorkHour).filter (fun wh =>
           qualifiesOvertime wh && (wh.hour = 20))).length :=
  ⟨(calculateOvertimeStats_range
      [{ id := 0, userId := 1, date := 5, hour := 20, hasActivity := true
         codeChanges := 1, webActivities := 0, isOvertime := true }]
      4 6).2.2.2.2.2.2.2 (by decide),
   (calculateOvertimeStats_range
      [{ id := 0, userId := 1, date := 5, hour := 20, hasActivity := true
         codeChanges := 1, webActivities := 0, isOvertime := true }]
      4 6).2.2.2.2.1 20⟩

/-! Invariants describing a repository's scanner state after a completed
scan pass at time `now1`, used for the idempotence claim. -/

/-- After a pass at `now1`, the stored cursor for `r` either resolves and
nothing follows it, or it does not resolve and every commit date lies
before the scan's fallback window (24h when a stale hash existed, 1h when
none was stored). -/
def commitCursorOk (now1 : Nat) (r : Repo) (s : ScannerState) : Prop :=
  match lookupA s.lastCommitHashes r.path with
  | some h =>
      (h ∈ r.commits.map (fun c => c.hash) ∧ afterHash h r.commits = []) ∨
      (h ∉ r.commits.map (fun c => c.hash) ∧
        ∀ c ∈ r.commits, c.timestamp < now1 - dayMs)
  | none => ∀ c ∈ r.commits, c.timestamp < now1 - hourMs

/-- After a pass, the stored diff fingerprint for `r` matches the
working-tree diff: absent when the diff is empty, the diff's own hash
otherwise. -/
def diffStateOk (r : Repo) (s : ScannerState) : Prop :=
  if jsTrim r.diffOutput.toList = [] then
    lookupA s.lastDiffHashes r.path = none ∧
    lookupA s.lastUncommittedStats r.path = none
  else
    lookupA s.lastDiffHashes r.path = some (hashString r.diffOutput)

/-- Both per-repo post conditions. -/
def repoOk (now1 : Nat) (r : Repo) (s : ScannerState) : Prop :=
  commitCursorOk now1 r s ∧ diffStateOk r s

theorem commitCursorOk_some_left (now1 : Nat) (r : Repo) (s : ScannerState)
    (h : String) (hl : lookupA s.lastCommitHashes r.path = some h)
    (hmem : h ∈ r.commits.map (fun c => c.hash))
    (hafter : afterHash h r.commits = []) : commitCursorOk now1 r s := by
  unfold commitCursorOk
  rw [hl]
  exact Or.inl ⟨hmem, hafter⟩

theorem commitCursorOk_some_right (now1 : Nat) (r : Repo) (s : ScannerState)
    (h : String) (hl : lookupA s.lastCommitHashes r.path = some h)
    (hnot : h ∉ r.commits.map (fun c => c.hash))
    (hts : ∀ c ∈ r.commits, c.timestamp < now1 - dayMs) :
    commitCursorOk now1 r s := by
  unfold commitCursorOk
  rw [hl]
  exact Or.inr ⟨hnot, hts⟩

theorem commitCursorOk_none (now1 : Nat) (r : Repo) (s : ScannerState)
    (hl : lookupA s.lastCommitHashes r.path = none)
    (hts : ∀ c ∈ r.commits, c.timestamp < now1 - hourMs) :
    commitCursorOk now1 r s := by
  unfold commitCursorOk
  rw [hl]
  exact hts

theorem filter_cutoff_getLast (l : List Commit) (cutoff : Nat)
    (hsort : l.Pairwise (fun a b => a.timestamp ≤ b.timestamp))
    (hne : l.filter (fun c => cutoff ≤ c.timestamp) ≠ []) :
    (l.filter (fun c => cutoff ≤ c.timestamp)).getLast? = l.getLast? := by
  induction l with
  | nil => simp at hne
  | cons a t ih =>
    rw [List.pairwise_cons] at hsort
    obtain ⟨ha, ht⟩ := hsort
    by_cases hfa : cutoff ≤ a.timestamp
    · have hself : (a :: t).filter (fun c => cutoff ≤ c.timestamp) = a :: t := by
        apply List.filter_eq_self.mpr
        intro b hb
        rcases List.mem_cons.mp hb with rfl | hbt
        · exact decide_eq_true hfa
        · exact decide_eq_true (le_trans hfa (ha b hbt))
      rw [hself]
    · have hfilter : (a :: t).filter (fun c => cutoff ≤ c.timestamp) =
          t.filter (fun c => cutoff ≤ c.timestamp) := by
        rw [List.filter_cons]
        simp [hfa]
      rw [hfilter] at hne ⊢
      rw [ih ht hne]
      have htne : t ≠ [] := by
        intro h0
        rw [h0] at hne
        simp at hne
      cases t with
      | nil => exact absurd rfl htne
      | cons b t' => rw [List.getLast?_cons_cons]

theorem getNewCommits_lookup_self (now : Nat) (r : Repo) (s : ScannerState) :
    lookupA (getNewCommits now r s).2.lastCommitHashes r.path =
      match ((commitLog now r s).reverse).getLast? with
      | some c => some c.hash
      | none => lookupA s.lastCommitHashes r.path := by
  rcases hl : ((commitLog now r s).reverse).getLast? with _ | c
  · have hnil : (commitLog now r s).reverse = [] := by
      rwa [List.getLast?_eq_none_iff] at hl
    rw [getNewCommits, hnil]
    rfl
  · rw [getNewCommits]
    exact foldl_processCommit_lookup_last r.path r.branch _ c hl _

theorem commitLog_none (now : Nat) (r : Repo) (s : ScannerState)
    (hl : lookupA s.lastCommitHashes r.path = none) :
    commitLog now r s = logSince (now - hourMs) r := by
  unfold commitLog
  rw [hl]

theorem commitLog_some_resolvable (now : Nat) (r : Repo) (s : ScannerState)
    (h : String) (hl : lookupA s.lastCommitHashes r.path = some h)
    (hany : r.commits.any (fun c => c.hash = h) = true) :
    commitLog now r s = logFrom h r := by
  unfold commitLog
  rw [hl]
  simp [hany]

theorem commitLog_some_stale (now : Nat) (r : Repo) (s : ScannerState)
    (h : String) (hl : lookupA s.lastCommitHashes r.path = some h)
    (hany : r.commits.any (fun c => c.hash = h) = false) :
    commitLog now r s = logSince (now - dayMs) r := by
  unfold commitLog
  rw [hl]
  simp [hany]

/-- In the `--since` fallback branch, a pass either processes nothing and
leaves the state untouched (empty window), or ends with the cursor on the
globally newest commit. -/
theorem getNewCommits_since_cases (now cutoff : Nat) (r : Repo)
    (s : ScannerState)
    (hsort : r.commits.Pairwise (fun a b => a.timestamp ≤ b.timestamp))
    (hnodup : (r.commits.map (fun c => c.hash)).Nodup)
    (hcl : commitLog now r s = logSince cutoff r) :
    (r.commits.filter (fun c => cutoff ≤ c.timestamp) = [] ∧
      (getNewCommits now r s).2 = s) ∨
    (∃ last : Commit,
      lookupA (getNewCommits now r s).2.lastCommitHashes r.path =
        some last.hash ∧
      last.hash ∈ r.commits.map (fun c => c.hash) ∧
      afterHash last.hash r.commits = []) := by
  have hrev : (commitLog now r s).reverse =
      r.commits.filter (fun c => cutoff ≤ c.timestamp) := by
    rw [hcl]
    unfold logSince
    rw [List.reverse_reverse]
  rcases hfe : r.commits.filter (fun c => cutoff ≤ c.timestamp) with _ | ⟨c0, t0⟩
  · left
    refine ⟨hfe, ?_⟩
    rw [getNewCommits, hrev, hfe]
    rfl
  · right
    have hne : r.commits.filter (fun c => cutoff ≤ c.timestamp) ≠ [] := by
      rw [hfe]
      exact List.cons_ne_nil _ _
    have hlastq : ((commitLog now r s).reverse).getLast? =
        r.commits.getLast? := by
      rw [hrev]
      exact filter_cutoff_getLast r.commits cutoff hsort hne
    have hcne : r.commits ≠ [] := by
      intro h0
      rw [h0] at hne
      simp at hne
    have hlastc : r.commits.getLast? = some (r.commits.getLast hcne) :=
      List.getLast?_eq_getLast_of_ne_nil hcne
    refine ⟨r.commits.getLast hcne, ?_, ?_, ?_⟩
    · rw [getNewCommits_lookup_self, hlastq, hlastc]
    · exact List.mem_map_of_mem _ (List.getLast_mem hcne)
    · exact afterHash_getLast_nil r.commits _ hlastc hnodup

theorem getNewCommits_establishes_cursor (now : Nat) (r : Repo)
    (s : ScannerState)
    (hsort : r.commits.Pairwise (fun a b => a.timestamp ≤ b.timestamp))
    (hnodup : (r.commits.map (fun c => c.hash)).Nodup) :
    commitCursorOk now r (getNewCommits now r s).2 := by
  rcases hl : lookupA s.lastCommitHashes r.path with _ | h
  · -- no stored hash: the 1h window
    rcases getNewCommits_since_cases now (now - hourMs) r s hsort hnodup
        (commitLog_none now r s hl) with ⟨hfe, hs⟩ | ⟨last, hlk, hmem, hafter⟩
    · apply commitCursorOk_none now r _ (by rw [hs]; exact hl)
      intro c hc
      have := List.filter_eq_nil.mp hfe c hc
      simp at this
      omega
    · exact commitCursorOk_some_left now r _ last.hash hlk hmem hafter
  · by_cases hres : ∃ c ∈ r.commits, c.hash = h
    · -- the stored hash resolves: log from the hash
      have hany : r.commits.any (fun c => c.hash = h) = true := by
        rw [List.any_eq_true]
        obtain ⟨c, hc, hch⟩ := hres
        exact ⟨c, hc, decide_eq_true hch⟩
      have hrev : (commitLog now r s).reverse = afterHash h r.commits := by
        rw [commitLog_some_resolvable now r s h hl hany]
        unfold logFrom
        exact List.reverse_reverse _
      have hmemh : h ∈ r.commits.map (fun c => c.hash) := by
        obtain ⟨c, hc, hch⟩ := hres
        exact hch ▸ List.mem_map_of_mem _ hc
      rcases hae : afterHash h r.commits with _ | ⟨c0, t0⟩
      · -- nothing new: the state is unchanged
        have hs : (getNewCommits now r s).2 = s := by
          rw [getNewCommits, hrev, hae]
          rfl
        exact commitCursorOk_some_left now r _ h (by rw [hs]; exact hl) hmemh hae
      · have hne : afterHash h r.commits ≠ [] := by
          rw [hae]
          exact List.cons_ne_nil _ _
        have hlastq : ((commitLog now r s).reverse).getLast? =
            r.commits.getLast? := by
          rw [hrev]
          exact afterHash_getLast_eq h r.commits hne
        have hcne : r.commits ≠ [] := by
          intro h0
          unfold afterHash at hne
          rw [h0] at hne
          simp at hne
        have hlastc : r.commits.getLast? = some (r.commits.getLast hcne) :=
          List.getLast?_eq_getLast_of_ne_nil hcne
        apply commitCursorOk_some_left now r _ (r.commits.getLast hcne).hash
        · rw [getNewCommits_lookup_self, hlastq, hlastc]
        · exact List.mem_map_of_mem _ (List.getLast_mem hcne)
        · exact afterHash_getLast_nil r.commits _ hlastc hnodup
    · -- stale hash: the 24h window
      have hany : r.commits.any (fun c => c.hash = h) = false := by
        rw [List.any_eq_false]
        intro c hc
        simp only [decide_eq_true_eq]
        exact fun hch => hres ⟨c, hc, hch⟩
      have hnotin : h ∉ r.commits.map (fun c => c.hash) := by
        intro hmem
        obtain ⟨c, hc, hch⟩ := List.mem_map.mp hmem
        exact hres ⟨c, hc, hch⟩
      rcases getNewCommits_since_cases now (now - dayMs) r s hsort hnodup
          (commitLog_some_stale now r s h hl hany) with
        ⟨hfe, hs⟩ | ⟨last, hlk, hmem, hafter⟩
      · apply commitCursorOk_some_right now r _ h (by rw [hs]; exact hl) hnotin
        intro c hc
        have := List.filter_eq_nil.mp hfe c hc
        simp at this
        omega
      · exact commitCursorOk_some_left now r _ last.hash hlk hmem hafter

theorem getUncommittedChanges_establishes_diff (r : Repo) (s : ScannerState) :
    diffStateOk r (getUncommittedChanges r s).2 := by
  by_cases h1 : jsTrim r.diffOutput.toList = []
  · have hs : (getUncommittedChanges r s).2 =
        { s with
          lastDiffHashes := eraseA s.lastDiffHashes r.path
          lastUncommittedStats := eraseA s.lastUncommittedStats r.path } := by
      unfold getUncommittedChanges
      dsimp only
      rw [if_pos h1]
    rw [diffStateOk, if_pos h1, hs]
    exact ⟨lookupA_eraseA_self _ _, lookupA_eraseA_self _ _⟩
  · by_cases h2 : some (hashString r.diffOutput) =
        lookupA s.lastDiffHashes r.path
    · have hs : (getUncommittedChanges r s).2 = s := by
        unfold getUncommittedChanges
        dsimp only
        rw [if_neg h1, if_pos h2]
      rw [diffStateOk, if_neg h1, hs]
      exact h2.symm
    · have hs : (getUncommittedChanges r s).2 =
          { s with
            lastDiffHashes :=
              insertA s.lastDiffHashes r.path (hashString r.diffOutput)
            lastUncommittedStats :=
              insertA s.lastUncommittedStats r.path r.diffStats } := by
        unfold getUncommittedChanges
        dsimp only
        rw [if_neg h1, if_neg h2]
        split_ifs <;> rfl
      rw [diffStateOk, if_neg h1, hs]
      exact lookupA_insertA_self _ _ _

theorem getUncommittedChanges_commitHashes (r : Repo) (s : ScannerState) :
    (getUncommittedChanges r s).2.lastCommitHashes = s.lastCommitHashes := by
  unfold getUncommittedChanges
  dsimp only
  split_ifs <;> rfl

theorem getUncommittedChanges_lookup_ne (r : Repo) (s : ScannerState)
    (k : String) (hk : k ≠ r.path) :
    lookupA (getUncommittedChanges r s).2.lastDiffHashes k =
      lookupA s.lastDiffHashes k ∧
    lookupA (getUncommittedChanges r s).2.lastUncommittedStats k =
      lookupA s.lastUncommittedStats k := by
  unfold getUncommittedChanges
  dsimp only
  split_ifs
  · exact ⟨lookupA_eraseA_ne _ _ _ (Ne.symm hk),
      lookupA_eraseA_ne _ _ _ (Ne.symm hk)⟩
  · exact ⟨rfl, rfl⟩
  · exact ⟨lookupA_insertA_ne _ _ _ _ (Ne.symm hk),
      lookupA_insertA_ne _ _ _ _ (Ne.symm hk)⟩
  · exact ⟨lookupA_insertA_ne _ _ _ _ (Ne.symm hk),
      lookupA_insertA_ne _ _ _ _ (Ne.symm hk)⟩

theorem getNewCommits_diff_fields (now : Nat) (r : Repo) (s : ScannerState) :
    (getNewCommits now r s).2.lastDiffHashes = s.lastDiffHashes ∧
    (getNewCommits now r s).2.lastUncommittedStats = s.lastUncommittedStats := by
  rw [getNewCommits]
  exact foldl_processCommit_diff_fields r.path r.branch _ ([], s)

theorem getNewCommits_lookup_ne (now : Nat) (r : Repo) (s : ScannerState)
    (k : String) (hk : k ≠ r.path) :
    lookupA (getNewCommits now r s).2.lastCommitHashes k =
      lookupA s.lastCommitHashes k := by
  rw [getNewCommits]
  exact foldl_processCommit_lookup_ne r.path r.branch _ k hk _

theorem commitCursorOk_of_lookup_eq (now1 : Nat) (r : Repo)
    (s s' : ScannerState)
    (heq : lookupA s'.lastCommitHashes r.path =
      lookupA s.lastCommitHashes r.path)
    (hok : commitCursorOk now1 r s) : commitCursorOk now1 r s' := by
  unfold commitCursorOk at hok ⊢
  rw [heq]
  exact hok

theorem diffStateOk_of_lookup_eq (r : Repo) (s s' : ScannerState)
    (heq1 : lookupA s'.lastDiffHashes r.path = lookupA s.lastDiffHashes r.path)
    (heq2 : lookupA s'.lastUncommittedStats r.path =
      lookupA s.lastUncommittedStats r.path)
    (hok : diffStateOk r s) : diffStateOk r s' := by
  unfold diffStateOk at hok ⊢
  rw [heq1, heq2]
  exact hok

theorem scanRepoStep_establishes (now : Nat)
    (acc : List InternalRepoChange × ScannerState) (r : Repo)
    (hsort : r.commits.Pairwise (fun a b => a.timestamp ≤ b.timestamp))
    (hnodup : (r.commits.map (fun c => c.hash)).Nodup) :
    repoOk now r (scanRepoStep now acc r).2 := by
  have hstep : (scanRepoStep now acc r).2 =
      (getUncommittedChanges r (getNewCommits now r acc.2).2).2 := rfl
  rw [hstep]
  constructor
  · apply commitCursorOk_of_lookup_eq now r (getNewCommits now r acc.2).2
    · rw [getUncommittedChanges_commitHashes]
    · exact getNewCommits_establishes_cursor now r acc.2 hsort hnodup
  · exact getUncommittedChanges_establishes_diff r _

theorem scanRepoStep_preserves (now1 now : Nat)
    (acc : List InternalRepoChange × ScannerState) (r r0 : Repo)
    (hne : r0.path ≠ r.path) (hok : repoOk now1 r0 acc.2) :
    repoOk now1 r0 (scanRepoStep now acc r).2 := by
  have hstep : (scanRepoStep now acc r).2 =
      (getUncommittedChanges r (getNewCommits now r acc.2).2).2 := rfl
  rw [hstep]
  obtain ⟨hoc, hod⟩ := hok
  constructor
  · apply commitCursorOk_of_lookup_eq now1 r0 acc.2
    · rw [getUncommittedChanges_commitHashes]
      exact getNewCommits_lookup_ne now r acc.2 r0.path hne
    · exact hoc
  · apply diffStateOk_of_lookup_eq r0 acc.2
    · rw [(getUncommittedChanges_lookup_ne r _ r0.path hne).1,
        (getNewCommits_diff_fields now r acc.2).1]
    · rw [(getUncommittedChanges_lookup_ne r _ r0.path hne).2,
        (getNewCommits_diff_fields now r acc.2).2]
    · exact hod

theorem getNewCommits_silent (now1 now2 : Nat) (hnow : now1 ≤ now2)
    (r : Repo) (s : ScannerState) (hok : commitCursorOk now1 r s) :
    getNewCommits now2 r s = ([], s) := by
  suffices hcl : (commitLog now2 r s).reverse = [] by
    rw [getNewCommits, hcl]
    rfl
  unfold commitCursorOk at hok
  rcases hl : lookupA s.lastCommitHashes r.path with _ | h
  · rw [hl] at hok
    rw [commitLog_none now2 r s hl]
    unfold logSince
    have : r.commits.filter (fun c => now2 - hourMs ≤ c.timestamp) = [] := by
      apply List.filter_eq_nil.mpr
      intro c hc
      simp only [decide_eq_true_eq, not_le]
      have h1 := hok c hc
      have h2 : now1 - hourMs ≤ now2 - hourMs := Nat.sub_le_sub_right hnow _
      omega
    rw [this]
    rfl
  · rw [hl] at hok
    rcases hok with ⟨hmem, hafter⟩ | ⟨hnot, hts⟩
    · have hany : r.commits.any (fun c => c.hash = h) = true := by
        rw [List.any_eq_true]
        obtain ⟨c, hc, hch⟩ := List.mem_map.mp hmem
        exact ⟨c, hc, decide_eq_true hch⟩
      rw [commitLog_some_resolvable now2 r s h hl hany]
      unfold logFrom
      rw [hafter]
      rfl
    · have hany : r.commits.any (fun c => c.hash = h) = false := by
        rw [List.any_eq_false]
        intro c hc
        simp only [decide_eq_true_eq]
        intro hch
        exact hnot (hch ▸ List.mem_map_of_mem _ hc)
      rw [commitLog_some_stale now2 r s h hl hany]
      unfold logSince
      have : r.commits.filter (fun c => now2 - dayMs ≤ c.timestamp) = [] := by
        apply List.filter_eq_nil.mpr
        intro c hc
        simp only [decide_eq_true_eq, not_le]
        have h1 := hts c hc
        have h2 : now1 - dayMs ≤ now2 - dayMs := Nat.sub_le_sub_right hnow _
        omega
      rw [this]
      rfl

theorem getUncommittedChanges_silent (r : Repo) (s : ScannerState)
    (hok : diffStateOk r s) : getUncommittedChanges r s = (none, s) := by
  unfold diffStateOk at hok
  by_cases h1 : jsTrim r.diffOutput.toList = []
  · rw [if_pos h1] at hok
    obtain ⟨hd, hu⟩ := hok
    unfold getUncommittedChanges
    dsimp only
    rw [if_pos h1, eraseA_of_lookupA_none _ _ hd, eraseA_of_lookupA_none _ _ hu]
  · rw [if_neg h1] at hok
    unfold getUncommittedChanges
    dsimp only
    rw [if_neg h1, if_pos hok.symm]

theorem scanRepoStep_silent (now1 now2 : Nat) (hnow : now1 ≤ now2)
    (acc : List InternalRepoChange × ScannerState) (r : Repo)
    (hok : repoOk now1 r acc.2) : scanRepoStep now2 acc r = acc := by
  unfold scanRepoStep
  rw [getNewCommits_silent now1 now2 hnow r acc.2 hok.1]
  dsimp only
  rw [getUncommittedChanges_silent r acc.2 hok.2]
  simp

theorem scanInternal_preserves (cfg : ScannerConfig) (now : Nat) (r0 : Repo)
    (hsort0 : r0.commits.Pairwise (fun a b => a.timestamp ≤ b.timestamp))
    (hnodup0 : (r0.commits.map (fun c => c.hash)).Nodup) :
    ∀ (repos : List Repo) (acc : List InternalRepoChange × ScannerState),
      (∀ r' ∈ repos, r'.path = r0.path → r' = r0) →
      repoOk now r0 acc.2 →
      repoOk now r0 ((repos.foldl
        (fun acc repo =>
          if isExcluded cfg repo.path then acc else scanRepoStep now acc repo)
        acc)).2 := by
  intro repos
  induction repos with
  | nil => intro acc _ hok; exact hok
  | cons r1 rest ih =>
    intro acc hinj hok
    rw [List.foldl_cons]
    apply ih _ (fun r' hr' => hinj r' (List.mem_cons_of_mem _ hr'))
    by_cases hex : isExcluded cfg r1.path
    · rw [if_pos hex]
      exact hok
    · rw [if_neg hex]
      by_cases hpe : r1.path = r0.path
      · have h1 : r1 = r0 := hinj r1 (List.mem_cons_self _ _) hpe
        subst h1
        exact scanRepoStep_establishes now acc r1 hsort0 hnodup0
      · exact scanRepoStep_preserves now now acc r1 r0
          (fun hh => hpe hh.symm) hok

theorem scanInternal_establishes (cfg : ScannerConfig) (now : Nat) :
    ∀ (repos : List Repo) (acc : List InternalRepoChange × ScannerState),
      (∀ r ∈ repos, r.commits.Pairwise (fun a b => a.timestamp ≤ b.timestamp)) →
      (∀ r ∈ repos, (r.commits.map (fun c => c.hash)).Nodup) →
      (∀ r ∈ repos, ∀ r' ∈ repos, r.path = r'.path → r = r') →
      ∀ r ∈ repos, isExcluded cfg r.path = false →
        repoOk now r ((repos.foldl
          (fun acc repo =>
            if isExcluded cfg repo.path then acc else scanRepoStep now acc repo)
          acc)).2 := by
  intro repos
  induction repos with
  | nil => intro acc _ _ _ r hr; cases hr
  | cons r1 rest ih =>
    intro acc hsorts hnodups hinj r hr hex
    rw [List.foldl_cons]
    rcases List.mem_cons.mp hr with rfl | hrest
    · apply scanInternal_preserves cfg now r
        (hsorts r (List.mem_cons_self _ _))
        (hnodups r (List.mem_cons_self _ _)) rest _
        (fun r' hr' hpe =>
          hinj r' (List.mem_cons_of_mem _ hr') r (List.mem_cons_self _ _) hpe)
      have hex' : ¬ isExcluded cfg r.path = true := by
        rw [hex]
        exact Bool.false_ne_true
      rw [if_neg hex']
      exact scanRepoStep_establishes now acc r
        (hsorts r (List.mem_cons_self _ _)) (hnodups r (List.mem_cons_self _ _))
    · exact ih _
        (fun r' hr' => hsorts r' (List.mem_cons_of_mem _ hr'))
        (fun r' hr' => hnodups r' (List.mem_cons_of_mem _ hr'))
        (fun r' hr' r'' hr'' =>
          hinj r' (List.mem_cons_of_mem _ hr') r'' (List.mem_cons_of_mem _ hr''))
        r hrest hex

theorem scanInternal_silent_fold (cfg : ScannerConfig) (now1 now2 : Nat)
    (hnow : now1 ≤ now2) :
    ∀ (repos : List Repo) (acc : List InternalRepoChange × ScannerState),
      (∀ r ∈ repos, isExcluded cfg r.path = false → repoOk now1 r acc.2) →
      repos.foldl
        (fun acc repo =>
          if isExcluded cfg repo.path then acc else scanRepoStep now2 acc repo)
        acc = acc := by
  intro repos
  induction repos with
  | nil => intro acc _; rfl
  | cons r1 rest ih =>
    intro acc hok
    rw [List.foldl_cons]
    by_cases hex : isExcluded cfg r1.path = true
    · rw [if_pos hex]
      exact ih acc (fun r hr h => hok r (List.mem_cons_of_mem _ hr) h)
    · have hex' : isExcluded cfg r1.path = false := by
        revert hex
        cases isExcluded cfg r1.path <;> simp
      rw [if_neg hex, scanRepoStep_silent now1 now2 hnow acc r1
        (hok r1 (List.mem_cons_self _ _) hex')]
      exact ih acc (fun r hr h => hok r (List.mem_cons_of_mem _ hr) h)

/-- C3: a completed scan pass whose state is saved makes the next pass (at
a later or equal time) emit zero ChangeRecords when nothing changed in any
repository: every per-repo cursor points at the newest commit (or its
window stays empty), and a byte-identical working-tree diff is suppressed
by the stored fingerprint.  The repositories are assumed to have
chronologically ordered commits with distinct hashes, and distinct
repositories have distinct paths. -/
theorem scanRepositories_idempotent (cfg : ScannerConfig) (repos : List Repo)
    (state : ScannerState) (now1 now2 : Nat)
    (hnow : now1 ≤ now2)
    (hsort : ∀ r ∈ repos,
      r.commits.Pairwise (fun a b => a.timestamp ≤ b.timestamp))
    (hnodup : ∀ r ∈ repos, (r.commits.map (fun c => c.hash)).Nodup)
    (hinj : ∀ r ∈ repos, ∀ r' ∈ repos, r.path = r'.path → r = r') :
    (scanRepositories cfg now2 repos
      (scanRepositories cfg now1 repos state).2).1 = [] := by
  have hpost := scanInternal_establishes cfg now1 repos ([], state)
    hsort hnodup hinj
  have hsilent : scanInternal cfg now2 repos
      (scanInternal cfg now1 repos state).2 =
      ([], (scanInternal cfg now1 repos state).2) := by
    unfold scanInternal
    exact scanInternal_silent_fold cfg now1 now2 hnow repos _
      (fun r hr hex => hpost r hr hex)
  show (scanInternal cfg now2 repos
    (scanInternal cfg now1 repos state).2).1.map (fun ic => ic.toRepoChange) = []
  rw [hsilent]
  rfl

/-- Witness for C3: scanning the same unchanged repository twice emits
nothing on the second pass. -/
theorem scanRepositories_idempotent_witness :
    (scanRepositories { excludePatterns := [] } 0
      [{ path := "/home/u/proj", branch := "main"
         commits :=
           [{ hash := "A", timestamp := 0
              showOutput := " 1 file changed, 1 insertion(+)" },
            { hash := "B", timestamp := 1
              showOutput := " 2 files changed, 3 insertions(+), 1 deletion(-)" }]
         diffOutput := " f | 1 +\n 1 file changed, 1 insertion(+)"
         diffStats := { linesAdded := 1, linesDeleted := 0, filesChanged := 1 } }]
      (scanRepositories { excludePatterns := [] } 0
        [{ path := "/home/u/proj", branch := "main"
           commits :=
             [{ hash := "A", timestamp := 0
                showOutput := " 1 file changed, 1 insertion(+)" },
              { hash := "B", timestamp := 1
                showOutput := " 2 files changed, 3 insertions(+), 1 deletion(-)" }]
           diffOutput := " f | 1 +\n 1 file changed, 1 insertion(+)"
           diffStats := { linesAdded := 1, linesDeleted := 0, filesChanged := 1 } }]
        { lastCommitHashes := [("/home/u/proj", "A")], lastDiffHashes := []
          lastUncommittedStats := [] }).2).1 = [] :=
  scanRepositories_idempotent { excludePatterns := [] }
    [{ path := "/home/u/proj", branch := "main"
       commits :=
         [{ hash := "A", timestamp := 0
            showOutput := " 1 file changed, 1 insertion(+)" },
          { hash := "B", timestamp := 1
            showOutput := " 2 files changed, 3 insertions(+), 1 deletion(-)" }]
       diffOutput := " f | 1 +\n 1 file changed, 1 insertion(+)"
       diffStats := { linesAdded := 1, linesDeleted := 0, filesChanged := 1 } }]
    { lastCommitHashes := [("/home/u/proj", "A")], lastDiffHashes := []
      lastUncommittedStats := [] }
    0 0 (by decide) (by decide) (by decide) (by decide)

end AntiWork
